import Mathlib

/-!
# mgobson: BSON codecs for the `M`, `D` and `RawD` document representations

A shallow embedding of `bson.go` (package `mgobson`).

* Go `byte` is `Fin 256`; a Go `[]byte` and a Go `string` are lists of bytes.
* `uint32(n)` is `n % 2 ^ 32`.
* A Go function returning `(T, error)` returns `Except Error T`.
-/

namespace Mgobson

/-- A Go `byte`. -/
abbrev Byte := Fin 256

/-- A Go `string`: an arbitrary sequence of bytes. -/
abbrev GoString := List Byte

/-- The errors that the decoders can return. `outOfFuel` belongs to the embedding only: the
loops and recursions take a bound on their steps, which the theorems show to suffice. -/
inductive Error where
  | tooSmall
  | invalidLength
  | missingTerminator
  | invalidKey
  | unknownType
  | truncatedValue
  | outOfFuel
  deriving DecidableEq, Repr

instance instDecidableEqExcept {ε α : Type} [DecidableEq ε] [DecidableEq α] :
    DecidableEq (Except ε α)
  | .ok a, .ok b => if h : a = b then isTrue (by rw [h]) else isFalse (by intro h'; cases h'; exact h rfl)
  | .error a, .error b =>
    if h : a = b then isTrue (by rw [h]) else isFalse (by intro h'; cases h'; exact h rfl)
  | .ok _, .error _ => isFalse (by intro h; cases h)
  | .error _, .ok _ => isFalse (by intro h; cases h)

/-! ## The raw representation (`bson.go`, `Raw`, `RawDocElem`, `RawD`) -/

/-- Go `type Raw struct { Kind byte; Data []byte }`. -/
structure Raw where
  Kind : Byte
  Data : List Byte
  deriving DecidableEq, Repr

/-- Go `type RawDocElem struct { Name string; Value Raw }`. -/
structure RawDocElem where
  Name : GoString
  Value : Raw
  deriving DecidableEq, Repr

/-- Go `type RawD []RawDocElem`. -/
abbrev RawD := List RawDocElem

/-- Go `uint32(n)` for a length `n`. -/
def uint32 (n : Nat) : Nat := n % 2 ^ 32

/-- Go `byte(v)` for an unsigned `v`. -/
def byte (v : Nat) : Byte := Fin.ofNat v

/-- Go `binary.LittleEndian.PutUint32(b, v)`: `b[0] = byte(v)`, `b[1] = byte(v >> 8)`,
`b[2] = byte(v >> 16)`, `b[3] = byte(v >> 24)`. The caller in `bson.go` passes a buffer of at
least five bytes. -/
def PutUint32 (b : List Byte) (v : Nat) : List Byte :=
  (((b.set 0 (byte v)).set 1 (byte (v >>> 8))).set 2 (byte (v >>> 16))).set 3 (byte (v >>> 24))

/-- Go `binary.LittleEndian.Uint32(b)`: the first four bytes read as a little-endian `uint32`. -/
def Uint32 (b : List Byte) : Nat :=
  (b.getD 0 0).val + (b.getD 1 0).val * 2 ^ 8 + (b.getD 2 0).val * 2 ^ 16
    + (b.getD 3 0).val * 2 ^ 24

/-- One iteration of the loop of `RawD.MarshalBSON`: the four `append`s. -/
def RawD.appendElem (b : List Byte) (elem : RawDocElem) : List Byte :=
  let b := b ++ [elem.Value.Kind]
  let b := b ++ elem.Name
  let b := b ++ [0]
  b ++ elem.Value.Data

/-- The method `func (r RawD) MarshalBSON() ([]byte, error)`. -/
def RawD.MarshalBSON (r : RawD) : Except Error (List Byte) :=
  let b : List Byte := [0, 0, 0, 0]
  let b := r.foldl RawD.appendElem b
  let b := b ++ [0]
  let length := uint32 b.length
  .ok (PutUint32 b length)

/-! ## Specification-side definitions for the raw encoder -/

/-- The 4-byte little-endian encoding of `v` (its low 32 bits). -/
def le32 (v : Nat) : List Byte :=
  [byte v, byte (v / 2 ^ 8), byte (v / 2 ^ 16), byte (v / 2 ^ 24)]

/-- The bytes `E_i` of one raw element: type tag, name, name terminator, payload. -/
def RawDocElem.bytes (e : RawDocElem) : List Byte :=
  [e.Value.Kind] ++ e.Name ++ [0] ++ e.Value.Data

/-- The bytes `E_1 ++ ... ++ E_n` of the elements of `r`, in sequence order. -/
def RawD.body (r : RawD) : List Byte :=
  (r.map RawDocElem.bytes).flatten

/-- The total length of the encoding of `r`: header, elements, terminator. -/
def RawD.size (r : RawD) : Nat :=
  (RawD.body r).length + 5

/-! ## The external element iterator

`RawD.UnmarshalBSON` consumes the driver's `bson.ReaderIterator`. The driver is not part of
this package; its iterator is modelled from the wire format of section 6 of the specification:

```
[int32 total_length][element]*[0x00 terminator]
element := [uint8 type_tag][cstring name][type-specific payload]
cstring := [UTF-8 bytes, no embedded 0x00][0x00]
```

The BSON type system itself (which tags exist, how long each payload is) is a parameter. -/

/-- Modelled from the spec: the BSON type system, which the specification leaves to the external
library. `payloadLen tag bs` is the length of the type-specific payload of an element of type
`tag` whose payload starts at the head of `bs`; it is `none` when `tag` is not a recognised type
tag or the payload is malformed. -/
structure TypeTable where
  payloadLen : Byte → List Byte → Option Nat

/-- Modelled from the spec: the `int32 total_length` of the wire format, the first four bytes
as a little-endian two's complement `int32`. -/
def readi32 (b : List Byte) : Int :=
  if Uint32 b < 2 ^ 31 then (Uint32 b : Int) else (Uint32 b : Int) - 2 ^ 32

/-- Modelled from the spec: an element yielded by the external iterator, with its type tag
(`Value().Type()`), its name (`Key()`) and the bytes of its value. -/
structure ReaderElement where
  Kind : Byte
  Key : GoString
  payload : List Byte
  deriving DecidableEq, Repr

/-- Modelled from the spec: the external "raw re-serialization" of an element,
`[type_tag][cstring name][payload]`. -/
def ReaderElement.MarshalBSON (e : ReaderElement) : Except Error (List Byte) :=
  .ok ([e.Kind] ++ e.Key ++ [0] ++ e.payload)

/-- Modelled from the spec: the state of the external iterator, the bytes of the document from
the current position up to the declared end. -/
structure ReaderIterator where
  rest : List Byte
  deriving DecidableEq, Repr

/-- Modelled from the spec: the external `bson.NewReaderIterator`. It rejects a buffer shorter
than the smallest document (5 bytes) and a buffer whose declared `int32 total_length` is negative
or exceeds the buffer ("truncated length"); otherwise the iterator stands behind the length. -/
def NewReaderIterator (b : List Byte) : Except Error ReaderIterator :=
  if b.length < 5 then .error .tooSmall
  else if readi32 b < 0 ∨ (b.length : Int) < readi32 b then .error .invalidLength
  else .ok ⟨(b.take (readi32 b).toNat).drop 4⟩

/-- Modelled from the spec: reading a `cstring` off the front of `bs`: the bytes before the
first `0x00`, and the bytes after it; `none` when `bs` has no `0x00`. -/
def readCString : List Byte → Option (GoString × List Byte)
  | [] => none
  | c :: bs =>
    if c = 0 then some ([], bs)
    else match readCString bs with
      | none => none
      | some (key, rest) => some (c :: key, rest)

/-- Modelled from the spec: the outcome of one call of the external iterator's `Next`: the
current element and the iterator behind it, the end of the stream, or the error of `Err()`. -/
inductive Step where
  | element (e : ReaderElement) (itr : ReaderIterator)
  | done
  | failed (err : Error)
  deriving DecidableEq, Repr

/-- Modelled from the spec: the external iterator's `Next`/`Element`/`Err`. At the declared end
without a terminator it fails ("missing terminator"); at a `0x00` it stops; otherwise it reads
`[uint8 type_tag][cstring name][type-specific payload]` and fails on an unterminated name, an
unknown type tag or a payload that runs over the declared end. -/
def ReaderIterator.Next (T : TypeTable) (itr : ReaderIterator) : Step :=
  match itr.rest with
  | [] => .failed .missingTerminator
  | tag :: bs =>
    if tag = 0 then .done
    else match readCString bs with
      | none => .failed .invalidKey
      | some (key, bs') =>
        match T.payloadLen tag bs' with
        | none => .failed .unknownType
        | some n =>
          if bs'.length < n then .failed .truncatedValue
          else .element ⟨tag, key, bs'.take n⟩ ⟨bs'.drop n⟩

/-! ## `RawD.UnmarshalBSON` -/

/-- The loop `for itr.Next() { ... }` of `RawD.UnmarshalBSON` followed by the check of
`itr.Err()`. Each iteration consumes at least two bytes, so `fuel` bounds the iterations. -/
def RawD.UnmarshalBSON.loop (T : TypeTable) : Nat → ReaderIterator → RawD → Except Error RawD
  | 0, _, _ => .error .outOfFuel
  | fuel + 1, itr, newR =>
    match itr.Next T with
    | .element readerElem itr' =>
      match readerElem.MarshalBSON with
      | .error err => .error err
      | .ok elemBytes =>
        let rawDocElem : RawDocElem :=
          { Name := readerElem.Key
            Value :=
              { Kind := readerElem.Kind
                Data := elemBytes.drop (1 + readerElem.Key.length + 1) } }
        RawD.UnmarshalBSON.loop T fuel itr' (newR ++ [rawDocElem])
    | .done => .ok newR
    | .failed err => .error err

/-- The decoding done by `RawD.UnmarshalBSON`: the value assigned to `*r` on success, or the
error returned. -/
def RawD.decode (T : TypeTable) (b : List Byte) : Except Error RawD :=
  match NewReaderIterator b with
  | .error err => .error err
  | .ok itr => RawD.UnmarshalBSON.loop T (b.length + 1) itr []

/-- The method `func (r *RawD) UnmarshalBSON(b []byte) error`, as a function from the receiver
and the buffer to the receiver afterwards and the returned error (`none` is Go `nil`). -/
def RawD.UnmarshalBSON (T : TypeTable) (r : RawD) (b : List Byte) : RawD × Option Error :=
  match RawD.decode T b with
  | .error err => (r, some err)
  | .ok newR => (newR, none)

/-! ## The BSON types exercised by the package's tests -/

/-- The type tag of a 32-bit integer (`bson_test.go`: "type - int32"). -/
def TypeInt32 : Byte := 0x10

/-- The type tag of a boolean (`bson_test.go`: "type - bool"). -/
def TypeBoolean : Byte := 0x08

/-- The type tag of an embedded document, `bson.TypeEmbeddedDocument` (`bson_test.go`:
"type - document"). -/
def TypeEmbeddedDocument : Byte := 0x03

/-- Modelled from the spec: the part of the BSON type system that the package's tests pin down:
int32 (`0x10`, four bytes), boolean (`0x08`, one byte) and embedded document (`0x03`, as long as
its own `int32 total_length` says, at least 5). -/
def testedTypes : TypeTable where
  payloadLen tag bs :=
    if tag = TypeInt32 then some 4
    else if tag = TypeBoolean then some 1
    else if tag = TypeEmbeddedDocument then
      if bs.length < 4 ∨ readi32 bs < 5 then none else some (readi32 bs).toNat
    else none

/-- Modelled from the spec: the type system of the driver. The three types that the package's
tests pin down are as in `testedTypes`; which further type tags exist (strings, 64-bit integers,
object identifiers and so on) and how long their payloads are is given by the table `T`, since
the specification leaves the BSON type system to the external library. -/
def driverTypes (T : TypeTable) : TypeTable where
  payloadLen tag bs :=
    if tag = TypeInt32 then some 4
    else if tag = TypeBoolean then some 1
    else if tag = TypeEmbeddedDocument then
      if bs.length < 4 ∨ readi32 bs < 5 then none else some (readi32 bs).toNat
    else T.payloadLen tag bs

/-! ## Running the iterator to the end -/

/-- Maps `f` over a list, stopping at the first error. -/
def mapExcept {α β : Type} (f : α → Except Error β) : List α → Except Error (List β)
  | [] => .ok []
  | a :: as =>
    match f a with
    | .error err => .error err
    | .ok b =>
      match mapExcept f as with
      | .error err => .error err
      | .ok bs => .ok (b :: bs)

/-- Modelled from the spec: the elements that `for itr.Next() { ... itr.Element() ... }`
visits, or the error that `itr.Err()` reports afterwards. Each element takes at least two
bytes, so `fuel` bounds the number of calls of `Next`. -/
def ReaderIterator.collect (T : TypeTable) :
    Nat → ReaderIterator → Except Error (List ReaderElement)
  | 0, _ => .error .outOfFuel
  | fuel + 1, itr =>
    match itr.Next T with
    | .element e itr' =>
      match ReaderIterator.collect T fuel itr' with
      | .error err => .error err
      | .ok es => .ok (e :: es)
    | .done => .ok []
    | .failed err => .error err

/-- Modelled from the spec: the elements of the document in `b`, read by a fresh iterator. -/
def readElements (T : TypeTable) (b : List Byte) : Except Error (List ReaderElement) :=
  match NewReaderIterator b with
  | .error err => .error err
  | .ok itr => ReaderIterator.collect T (b.length + 1) itr

/-! ## The external document model (`bson.Document`, `bson.Element`, `bson.Value`)

The driver's document model and its parser are not part of this package. They are modelled for
the type system `driverTypes T`: int32, boolean and embedded document are interpreted, as the
package's tests pin them down; an element of any other type that the table `T` recognises is
kept with its type tag and payload, and its interpreted Go value is given by these two. Every
function of `bson.go` that goes through the driver takes the table `T` as its first argument. -/

/-- Modelled from the spec: the value of an element of the external document model
(`bson.Value`): a 32-bit integer, a boolean, a sub-document, or a value of any other BSON type
(a string, a 64-bit integer, an object identifier and so on), which is kept as its type tag and
the bytes of its payload. -/
inductive BVal where
  | int32 (v : Int)
  | boolean (b : Bool)
  | document (d : List (GoString × BVal))
  | other (kind : Byte) (payload : List Byte)

/-- Modelled from the spec: an element of the external document model (`bson.Element`): a name
and a value. -/
abbrev Element := GoString × BVal

/-- Modelled from the spec: the external document model (`bson.Document`): the elements in
order. -/
abbrev Document := List Element

/-- Modelled from the spec: the name of an element, `elem.Key()`. -/
def Element.Key (e : Element) : GoString := e.1

/-- Modelled from the spec: the value of an element, `elem.Value()`. -/
def Element.Value (e : Element) : BVal := e.2

/-- Modelled from the spec: the type tag of a value, `Value().Type()`. -/
def BVal.Kind : BVal → Byte
  | .int32 _ => TypeInt32
  | .boolean _ => TypeBoolean
  | .document _ => TypeEmbeddedDocument
  | .other kind _ => kind

/-- Modelled from the spec: the frame of a document around the bytes of its elements: the
backfilled little-endian `uint32` length, the elements, the trailing null byte (section 4.1). -/
def frame (body : List Byte) : List Byte :=
  le32 (uint32 (body.length + 5)) ++ body ++ [0]

mutual
/-- Modelled from the spec: the type-specific payload of a value: four little-endian bytes of
the two's complement of an int32, one byte `0x00` or `0x01` for a boolean, the whole encoding of
a sub-document, and the payload bytes as they are for a value of another type. -/
def BVal.payload : BVal → List Byte
  | .int32 v => le32 (v % 2 ^ 32).toNat
  | .boolean b => [if b then 1 else 0]
  | .document d => frame (Document.body d)
  | .other _ payload => payload
/-- Modelled from the spec: the bytes of the elements of a document, each
`[type_tag][cstring name][payload]`, in order. -/
def Document.body : List (GoString × BVal) → List Byte
  | [] => []
  | (key, v) :: rest => [v.Kind] ++ key ++ [0] ++ v.payload ++ Document.body rest
end

/-- Modelled from the spec: the external document-to-bytes primitive `doc.MarshalBSON()`:
"concatenate the header/elements/trailing-null exactly as in 4.1 and backfill the length". -/
def Document.MarshalBSON (doc : Document) : Except Error (List Byte) :=
  .ok (frame (Document.body doc))

/-- Modelled from the spec: `Value().ReaderDocument()`, the bytes of a sub-document. -/
def BVal.ReaderDocument : BVal → List Byte
  | .document d => frame (Document.body d)
  | _ => []

/-- Modelled from the spec: the interpretation of the payload of one element read by the
iterator. A sub-document is parsed in turn by `sub`; an element of a type other than int32,
boolean and embedded document, which the iterator has recognised, keeps its type tag and its
payload. -/
def ReaderElement.interpret (sub : List Byte → Except Error Document) (e : ReaderElement) :
    Except Error Element :=
  if e.Kind = TypeInt32 then .ok (e.Key, .int32 (readi32 e.payload))
  else if e.Kind = TypeBoolean then .ok (e.Key, .boolean (e.payload = [1]))
  else if e.Kind = TypeEmbeddedDocument then
    match sub e.payload with
    | .error err => .error err
    | .ok d => .ok (e.Key, .document d)
  else .ok (e.Key, .other e.Kind e.payload)

/-- Modelled from the spec: the parser behind `bson.UnmarshalDocument`, for the type system
`driverTypes T`; `fuel` bounds the nesting depth. -/
def UnmarshalDocument.go (T : TypeTable) : Nat → List Byte → Except Error Document
  | 0, _ => .error .outOfFuel
  | fuel + 1, b =>
    match readElements (driverTypes T) b with
    | .error err => .error err
    | .ok es => mapExcept (ReaderElement.interpret (UnmarshalDocument.go T fuel)) es

/-- Modelled from the spec: the external bytes-to-document primitive `bson.UnmarshalDocument`:
the elements are read by the iterator and sub-documents are parsed recursively. It "fails with a
decode error on the same conditions as 4.1". The table `T` gives the payload lengths of the types
other than int32, boolean and embedded document; a type tag that it does not recognise is a
decode error. A sub-document is at least 7 bytes shorter than the document around it, so the
length of the buffer bounds the depth. -/
def UnmarshalDocument (T : TypeTable) (b : List Byte) : Except Error Document :=
  UnmarshalDocument.go T b.length b

/-! ## Go values -/

/-- Go values that are not of this package's types: `int32`, `bool`, `map[string]interface{}`
(as produced by the generic unmarshal; the entries are in iteration order), a scalar of another
type that BSON represents (a `string`, an `int64`, an object identifier and so on), and a value
of a type that BSON cannot represent (a channel, a function). A scalar of another type is
the interpreted value of an element of type `kind` with the payload `payload`, and is given by
these two. `bson.EC.Interface` has no error result and its result is appended as it is
(`bson.go`, `appendToDoc`, `default`), so it makes an element of an unsupported value too;
neither the source nor the specification says which one, and the value carries it as `elem`. -/
inductive Plain where
  | int32 (v : Int)
  | bool (b : Bool)
  | map (m : List (GoString × Plain))
  | other (kind : Byte) (payload : List Byte)
  | unsupported (elem : BVal)

/-- A Go `interface{}` value: a value of one of this package's types `D`, `M`, `RawD`, or a
value for the `default` branch of the type switches. A map is the list of its entries in
iteration order. -/
inductive Value where
  | plain (p : Plain)
  | D (d : List (GoString × Value))
  | M (m : List (GoString × Value))
  | RawD (r : RawD)

/-- Go `type DocElem struct { Name string; Value interface{} }`. -/
abbrev DocElem := GoString × Value

/-- The field `Name` of a `DocElem`. -/
def DocElem.Name (e : DocElem) : GoString := e.1

/-- The field `Value` of a `DocElem`. -/
def DocElem.Value (e : DocElem) : Value := e.2

/-- Go `type D []DocElem`. -/
abbrev D := List DocElem

/-- Go `type M map[string]interface{}`: the entries in the order in which `range` visits them. -/
abbrev M := List (GoString × Value)

/-- Go `m[key] = v` on a map: replaces the value of an existing key, adds a new entry
otherwise. -/
def GoMap.set {α : Type} : List (GoString × α) → GoString → α → List (GoString × α)
  | [], key, v => [(key, v)]
  | (k, x) :: m, key, v => if k = key then (k, v) :: m else (k, x) :: GoMap.set m key v

/-! ## The element constructors of the driver -/

/-- Modelled from the spec: `bson.EC.SubDocument(key, d)`, the "construct-sub-document-element"
of the builder library. -/
def EC.SubDocument (key : GoString) (d : Document) : Element := (key, .document d)

mutual
/-- Modelled from the spec: the value that the "generic-interface-to-element conversion" gives
a Go value: an int32 and a bool become elements of those types, a map a sub-document of its
entries, a scalar of another type the element of its type tag and payload. -/
def EC.Interface.value : Plain → BVal
  | .int32 v => .int32 v
  | .bool b => .boolean b
  | .map m => .document (EC.Interface.entries m)
  | .other kind payload => .other kind payload
  | .unsupported elem => elem
/-- Modelled from the spec: the elements of the entries of a map, in iteration order. -/
def EC.Interface.entries : List (GoString × Plain) → List (GoString × BVal)
  | [] => []
  | (key, v) :: rest => (key, EC.Interface.value v) :: EC.Interface.entries rest
end

/-- Modelled from the spec: `bson.EC.Interface(key, v)`. -/
def EC.Interface (key : GoString) (v : Plain) : Element := (key, EC.Interface.value v)

mutual
/-- Modelled from the spec: `Value().Interface()`, the "native interpreted value" of an
element: an `int32`, a `bool`, for a sub-document the plain map of its elements, and for an
element of another type the scalar of that type and payload. -/
def BVal.Interface : BVal → Plain
  | .int32 v => .int32 v
  | .boolean b => .bool b
  | .document d => .map (Document.toMap d [])
  | .other kind payload => .other kind payload
/-- Modelled from the spec: the generic decoding of the elements of a document into the map
`m`: `m[key] = value` for each element in order. -/
def Document.toMap : List (GoString × BVal) → List (GoString × Plain) → List (GoString × Plain)
  | [], m => m
  | (key, v) :: rest, m => Document.toMap rest (GoMap.set m key (BVal.Interface v))
end

/-! ## Encoding to the document model: `appendToDoc`, `MarshalBSONDocument` -/

/-- The method `func (r RawD) MarshalBSONDocument() (*bson.Document, error)`. -/
def RawD.MarshalBSONDocument (T : TypeTable) (r : RawD) : Except Error Document :=
  match RawD.MarshalBSON r with
  | .error err => .error err
  | .ok b => UnmarshalDocument T b

mutual
/-- The function `appendToDoc(doc, key, value)`: the document after the call, or the error
returned. -/
def appendToDoc (T : TypeTable) (doc : Document) (key : GoString) : Value → Except Error Document
  | .D v =>
    match D.MarshalBSONDocument.loop T v [] with
    | .error err => .error err
    | .ok d => .ok (doc ++ [EC.SubDocument key d])
  | .M v =>
    match M.MarshalBSONDocument.loop T v [] with
    | .error err => .error err
    | .ok d => .ok (doc ++ [EC.SubDocument key d])
  | .RawD v =>
    match RawD.MarshalBSONDocument T v with
    | .error err => .error err
    | .ok d => .ok (doc ++ [EC.SubDocument key d])
  | .plain v => .ok (doc ++ [EC.Interface key v])
/-- The loop `for _, elem := range d` of `D.MarshalBSONDocument`. -/
def D.MarshalBSONDocument.loop (T : TypeTable) :
    List (GoString × Value) → Document → Except Error Document
  | [], doc => .ok doc
  | (name, value) :: rest, doc =>
    match appendToDoc T doc name value with
    | .error err => .error err
    | .ok doc => D.MarshalBSONDocument.loop T rest doc
/-- The loop `for k, v := range m` of `M.MarshalBSONDocument`. -/
def M.MarshalBSONDocument.loop (T : TypeTable) :
    List (GoString × Value) → Document → Except Error Document
  | [], doc => .ok doc
  | (k, v) :: rest, doc =>
    match appendToDoc T doc k v with
    | .error err => .error err
    | .ok doc => M.MarshalBSONDocument.loop T rest doc
end

/-- The method `func (d D) MarshalBSONDocument() (*bson.Document, error)`. -/
def D.MarshalBSONDocument (T : TypeTable) (d : D) : Except Error Document :=
  D.MarshalBSONDocument.loop T d []

/-- The method `func (m M) MarshalBSONDocument() (*bson.Document, error)`. -/
def M.MarshalBSONDocument (T : TypeTable) (m : M) : Except Error Document :=
  M.MarshalBSONDocument.loop T m []

/-! ## The unsafe variants -/

/-- The outcome of a Go call that either returns or panics with an error. -/
inductive Outcome (α : Type) where
  | returns (a : α)
  | panics (err : Error)

/-- The method `func (m M) MarshalBSONDocumentUnsafe() *bson.Document`. -/
def M.MarshalBSONDocumentUnsafe (T : TypeTable) (m : M) : Outcome Document :=
  match M.MarshalBSONDocument T m with
  | .error err => .panics err
  | .ok doc => .returns doc

/-- The method `func (d D) MarshalBSONDocumentUnsafe() *bson.Document`. -/
def D.MarshalBSONDocumentUnsafe (T : TypeTable) (d : D) : Outcome Document :=
  match D.MarshalBSONDocument T d with
  | .error err => .panics err
  | .ok doc => .returns doc

/-- The method `func (r RawD) MarshalBSONDocumentUnsafe() *bson.Document`. -/
def RawD.MarshalBSONDocumentUnsafe (T : TypeTable) (r : RawD) : Outcome Document :=
  match RawD.MarshalBSONDocument T r with
  | .error err => .panics err
  | .ok doc => .returns doc

/-! ## Encoding to bytes -/

/-- The method `func (d D) MarshalBSON() ([]byte, error)`. -/
def D.MarshalBSON (T : TypeTable) (d : D) : Except Error (List Byte) :=
  match D.MarshalBSONDocument T d with
  | .error err => .error err
  | .ok doc => Document.MarshalBSON doc

/-- Modelled from the spec: the external `bson.Marshal` on a map, section 4.3: "identical
element-dispatch rule to 4.2 but iterating the mapping's entries", then the
header/elements/trailing-null of 4.1. -/
def Marshal (T : TypeTable) (m : List (GoString × Value)) : Except Error (List Byte) :=
  match M.MarshalBSONDocument.loop T m [] with
  | .error err => .error err
  | .ok doc => Document.MarshalBSON doc

/-- The method `func (m M) MarshalBSON() ([]byte, error)`. -/
def M.MarshalBSON (T : TypeTable) (m : M) : Except Error (List Byte) :=
  Marshal T m

/-! ## Decoding `D` -/

/-- The body of the loop of `D.UnmarshalBSON` for one element; `sub` is the recursive call
`subD.UnmarshalBSON`. -/
def D.UnmarshalBSON.elem (sub : List Byte → Except Error D) (elem : Element) :
    Except Error DocElem :=
  match elem.Value with
  | .document d =>
    match sub (BVal.ReaderDocument (.document d)) with
    | .error err => .error err
    | .ok subD => .ok (elem.Key, .D subD)
  | v => .ok (elem.Key, .plain v.Interface)

/-- The decoding done by `D.UnmarshalBSON`; `fuel` bounds the depth of the recursion. -/
def D.decode.go (T : TypeTable) : Nat → List Byte → Except Error D
  | 0, _ => .error .outOfFuel
  | fuel + 1, b =>
    match UnmarshalDocument T b with
    | .error err => .error err
    | .ok doc => mapExcept (D.UnmarshalBSON.elem (D.decode.go T fuel)) doc

/-- The decoding done by `D.UnmarshalBSON`: the value assigned to `*d` on success, or the error
returned. -/
def D.decode (T : TypeTable) (b : List Byte) : Except Error D :=
  D.decode.go T b.length b

/-- The method `func (d *D) UnmarshalBSON(b []byte) error`, as a function from the receiver and
the buffer to the receiver afterwards and the returned error. -/
def D.UnmarshalBSON (T : TypeTable) (d : D) (b : List Byte) : D × Option Error :=
  match D.decode T b with
  | .error err => (d, some err)
  | .ok newD => (newD, none)

/-! ## Decoding `M` -/

/-- Modelled from the spec: the external generic unmarshal `bson.Unmarshal(b, newM)` into a
map: the document is parsed and `newM[key]` is set to the interpreted value of each element. -/
def Unmarshal (T : TypeTable) (b : List Byte) (newM : List (GoString × Value)) :
    Except Error (List (GoString × Value)) :=
  match UnmarshalDocument T b with
  | .error err => .error err
  | .ok doc => .ok (doc.foldl (fun m e => GoMap.set m e.Key (.plain e.Value.Interface)) newM)

/-- Go `M(v)` for `v` a `map[string]interface{}` produced by the generic unmarshal. -/
def Plain.toM (v : List (GoString × Plain)) : M :=
  v.map (fun kv => (kv.1, .plain kv.2))

/-- The body of the loop `for key, val := range newM` of `M.UnmarshalBSON`. -/
def M.UnmarshalBSON.step (newM : List (GoString × Value)) (entry : GoString × Value) :
    List (GoString × Value) :=
  match entry.2 with
  | .plain (.map v) => GoMap.set newM entry.1 (.M (Plain.toM v))
  | _ => newM

/-- The decoding done by `M.UnmarshalBSON`: the value assigned to `*m` on success, or the error
returned. -/
def M.decode (T : TypeTable) (b : List Byte) : Except Error M :=
  match Unmarshal T b [] with
  | .error err => .error err
  | .ok newM => .ok (newM.foldl M.UnmarshalBSON.step newM)

/-- The method `func (m *M) UnmarshalBSON(b []byte) error`, as a function from the receiver and
the buffer to the receiver afterwards and the returned error. -/
def M.UnmarshalBSON (T : TypeTable) (m : M) (b : List Byte) : M × Option Error :=
  match M.decode T b with
  | .error err => (m, some err)
  | .ok newM => (newM, none)

/-- A raw element is well formed for a type table: its name has no zero byte, its kind is a
recognised type tag (never the terminator `0x00`) and its data is exactly one payload of that
type, whatever follows it. -/
structure RawDocElem.WellFormed (T : TypeTable) (e : RawDocElem) : Prop where
  name : (0 : Byte) ∉ e.Name
  kind : e.Value.Kind ≠ 0
  data : ∀ rest, T.payloadLen e.Value.Kind (e.Value.Data ++ rest) = some e.Value.Data.length

/-- Every element of a raw document is well formed. -/
def RawD.WellFormed (T : TypeTable) (r : RawD) : Prop :=
  ∀ e ∈ r, RawDocElem.WellFormed T e

/-- The payloads of the table are self-delimiting: the length of a payload depends on the bytes
of the payload alone, not on the bytes that follow it. -/
def TypeTable.SelfDelimiting (T : TypeTable) : Prop :=
  ∀ (tag : Byte) (bs : List Byte) (n : Nat), T.payloadLen tag bs = some n → n ≤ bs.length →
    ∀ rest, T.payloadLen tag (bs.take n ++ rest) = some n

/-! ## The test vectors of `bson_test.go` for `RawD` -/

/-- The name `"foo"`. -/
def foo : GoString := [0x66, 0x6f, 0x6f]

/-- The name `"bar"`. -/
def bar : GoString := [0x62, 0x61, 0x72]

/-- The 20 bytes of the test case "simple". -/
def simpleBytes : List Byte :=
  [0x14, 0, 0, 0, 0x10, 0x66, 0x6f, 0x6f, 0, 1, 0, 0, 0, 0x08, 0x62, 0x61, 0x72, 0, 0, 0]

/-- The 21 bytes of the test case "nested". -/
def nestedBytes : List Byte :=
  [0x15, 0, 0, 0, 0x03, 0x66, 0x6f, 0x6f, 0, 0x0b, 0, 0, 0, 0x08, 0x62, 0x61, 0x72, 0, 0, 0, 0]

/-- The `RawD` of the test case "simple". -/
def simpleRawD : RawD :=
  [⟨foo, ⟨0x10, [1, 0, 0, 0]⟩⟩, ⟨bar, ⟨0x08, [0]⟩⟩]

/-- The `RawD` of the test case "nested". -/
def nestedRawD : RawD :=
  [⟨foo, ⟨0x03, [0x0b, 0, 0, 0, 0x08, 0x62, 0x61, 0x72, 0, 0, 0]⟩⟩]


/-! ## Specification-side definitions for the document model -/

/-- The raw element with the name, the type tag and the payload of a model element. -/
def Element.toRaw (e : Element) : RawDocElem :=
  ⟨e.1, ⟨e.2.Kind, e.2.payload⟩⟩

/-- The element that the iterator yields for a raw element. -/
def RawDocElem.toReader (e : RawDocElem) : ReaderElement :=
  ⟨e.Value.Kind, e.Name, e.Value.Data⟩

mutual
/-- A value of the document model is well formed: an int32 is in range, the names inside a
sub-document have no zero byte, and a value of another type has a type tag other than the
terminator and the tags of int32, boolean and embedded document, with a payload that is exactly
one payload of that type, whatever follows it. -/
def BVal.WF (T : TypeTable) : BVal → Prop
  | .int32 v => -2 ^ 31 ≤ v ∧ v < 2 ^ 31
  | .boolean _ => True
  | .document d => Document.WF T d
  | .other kind payload =>
    kind ≠ 0 ∧ kind ≠ TypeInt32 ∧ kind ≠ TypeBoolean ∧ kind ≠ TypeEmbeddedDocument ∧
      ∀ rest, T.payloadLen kind (payload ++ rest) = some payload.length
/-- Every element of the document has a name without zero byte and a well-formed value. -/
def Document.WF (T : TypeTable) : List (GoString × BVal) → Prop
  | [] => True
  | (key, v) :: rest => (0 : Byte) ∉ key ∧ BVal.WF T v ∧ Document.WF T rest
end

/-- A value of a type other than int32, boolean and embedded document has a type tag that is
not the terminator and a payload that is exactly one payload of that type in the type system of
the driver, whatever follows it. -/
def BVal.Valid (T : TypeTable) : BVal → Prop
  | .other kind payload =>
    kind ≠ 0 ∧ ∀ rest, (driverTypes T).payloadLen kind (payload ++ rest) = some payload.length
  | _ => True

/-- The element that the generic encoder makes of the value, when the value goes to the
`default` branch of `appendToDoc`, is valid in the sense of `BVal.Valid`. -/
def Value.ValidOther (T : TypeTable) : Value → Prop
  | .plain p => BVal.Valid T (EC.Interface.value p)
  | _ => True

/-! ## Specification-side definitions for the ordered representation -/

mutual
/-- The value that `appendToDoc` appends for a Go value: the generic element value for a plain
value, a sub-document for a `D`, an `M` and a `RawD` (the empty one where the raw document has
no document model). -/
def Value.toBVal (T : TypeTable) : Value → BVal
  | .plain p => EC.Interface.value p
  | .D d => .document (Value.toDocument T d)
  | .M m => .document (Value.toDocument T m)
  | .RawD r =>
    match RawD.MarshalBSONDocument T r with
    | .ok doc => .document doc
    | .error _ => .document []
/-- The document that `MarshalBSONDocument` builds for the elements or entries. -/
def Value.toDocument (T : TypeTable) : List (GoString × Value) → List (GoString × BVal)
  | [] => []
  | (name, v) :: rest => (name, Value.toBVal T v) :: Value.toDocument T rest
end

mutual
/-- A value of the ordered fragment: an `int32` (in range), a `bool`, a scalar of another type
(with a type tag that the table recognises and a payload of that type), or a `D` whose names
have no zero byte and whose values are of the ordered fragment. -/
def Value.Ordered (T : TypeTable) : Value → Prop
  | .plain (.int32 v) => -2 ^ 31 ≤ v ∧ v < 2 ^ 31
  | .plain (.bool _) => True
  | .plain (.other kind payload) => BVal.WF T (.other kind payload)
  | .plain (.map _) => False
  | .plain (.unsupported _) => False
  | .D d => Value.OrderedElems T d
  | .M _ => False
  | .RawD _ => False
/-- Every element has a name without zero byte and a value of the ordered fragment. -/
def Value.OrderedElems (T : TypeTable) : List (GoString × Value) → Prop
  | [] => True
  | (name, v) :: rest => (0 : Byte) ∉ name ∧ Value.Ordered T v ∧ Value.OrderedElems T rest
end

/-- The `D` of the test case "simple". -/
def simpleD : D := [(foo, .plain (.int32 1)), (bar, .plain (.bool false))]

/-- The `D` of the test case "nested". -/
def nestedD : D := [(foo, .D [(bar, .plain (.bool false))])]

/-- The `M` of the test case "nested". -/
def nestedM : M := [(foo, .M [(bar, .plain (.bool false))])]

/-- A `D` that holds an `M`: `D{{"foo", M{"bar": false}}}`. -/
def dWithM : D := [(foo, .M [(bar, .plain (.bool false))])]

/-- A raw boolean element `false` with the empty name; it takes three bytes. -/
def emptyNameBool : RawDocElem := ⟨[], ⟨0x08, [0]⟩⟩

/-- A well-formed raw document of 1431655766 elements, which takes `2 ^ 32 + 7` bytes. -/
def manyBools : RawD := List.replicate 1431655766 emptyNameBool

/-- The `M` with documents nested two deep: `M{"a": M{"b": M{}}}`. -/
def deepM : M := [([0x61], .M [([0x62], .M [])])]

/-- What `M.UnmarshalBSON` makes of the encoding of `deepM`: the inner document is a bare
`map[string]interface{}`. -/
def deepMDecoded : M := [([0x61], .M [([0x62], .plain (.map []))])]

/-- The 21 bytes of `M{"a": M{"b": M{}}}`. -/
def deepMBytes : List Byte :=
  [21, 0, 0, 0, 0x03, 0x61, 0, 13, 0, 0, 0, 0x03, 0x62, 0, 5, 0, 0, 0, 0, 0, 0]

/-- A raw document of one element, with the empty name and `n` zero bytes of data. -/
def zerosRaw (n : Nat) : RawD := [⟨[], ⟨0x05, List.replicate n 0⟩⟩]

/-- A raw document whose one element `"a"` has, after the boolean `false`, the bytes of a
second element `"b"` in its data. -/
def embeddedRaw : RawD := [⟨[0x61], ⟨0x08, [0, 0x08, 0x62, 0, 0]⟩⟩]

/-- The names of the elements read from the encoded bytes `b`, front to back. -/
def encodedNames (T : TypeTable) (b : List Byte) : Except Error (List GoString) :=
  match readElements T b with
  | .error err => .error err
  | .ok es => .ok (es.map ReaderElement.Key)

/-! ## Specification-side definitions for the decoders of `M` and `D` -/

/-- The entry that the unordered decoder is to hold for a generically decoded entry: a plain
nested mapping is re-tagged as an `M`, every other value is left as it is. -/
def M.retagged (entry : GoString × Value) : GoString × Value :=
  match entry.2 with
  | .plain (.map v) => (entry.1, .M (Plain.toM v))
  | _ => entry

mutual
/-- The Go value that the ordered decoder is to store for a value of the document: a `D` for a
sub-document, decoded recursively, and the interpreted value for every other type. -/
def BVal.toOrdered : BVal → Value
  | .int32 v => .plain (BVal.Interface (.int32 v))
  | .boolean b => .plain (BVal.Interface (.boolean b))
  | .other kind payload => .plain (BVal.Interface (.other kind payload))
  | .document d => .D (Document.toD d)
/-- The `D` of a document: the same names in the same order, each with its ordered value. -/
def Document.toD : List (GoString × BVal) → List (GoString × Value)
  | [] => []
  | (key, v) :: rest => (key, BVal.toOrdered v) :: Document.toD rest
end

/-- The bytes that the elements read by the iterator take in the buffer. -/
def elemsSize : List ReaderElement → Nat
  | [] => 0
  | e :: es => e.Key.length + e.payload.length + 2 + elemsSize es

/-- A buffer of five bytes whose length prefix declares twenty. -/
def truncatedBytes : List Byte := [0x14, 0, 0, 0, 0]

/-! ## Specification-side definitions for the encoders -/

/-- The raw element that the iterator's element stands for: `RawD.UnmarshalBSON` keeps its
name, its type tag and its payload. -/
def ReaderElement.toRaw (e : ReaderElement) : RawDocElem :=
  ⟨e.Key, ⟨e.Kind, e.payload⟩⟩

/-- The result of `v.MarshalBSONDocument()` for a value of one of this package's types; `none`
for a value of the `default` branch, which has no such method. -/
def Value.MarshalBSONDocument (T : TypeTable) : Value → Option (Except Error Document)
  | .plain _ => none
  | .D d => some (D.MarshalBSONDocument T d)
  | .M m => some (M.MarshalBSONDocument T m)
  | .RawD r => some (RawD.MarshalBSONDocument T r)

mutual
/-- Some `RawD` inside the value, reached through `D` and `M` values, fails
`MarshalBSONDocument` with the error `e`. -/
def Value.RawFails (T : TypeTable) (e : Error) : Value → Prop
  | .plain _ => False
  | .D d => Value.SomeRawFails T e d
  | .M m => Value.SomeRawFails T e m
  | .RawD r => RawD.MarshalBSONDocument T r = .error e
/-- Some `RawD` inside the elements or entries fails `MarshalBSONDocument` with `e`. -/
def Value.SomeRawFails (T : TypeTable) (e : Error) : List (GoString × Value) → Prop
  | [] => False
  | (_, v) :: rest => Value.RawFails T e v ∨ Value.SomeRawFails T e rest
end

mutual
/-- A value that is an `int32`, a `bool` or a `D` of such values, whatever the names. -/
def Value.OfOrderedKind : Value → Prop
  | .plain (.int32 _) => True
  | .plain (.bool _) => True
  | .plain (.other _ _) => False
  | .plain (.map _) => False
  | .plain (.unsupported _) => False
  | .D d => Value.AllOfOrderedKind d
  | .M _ => False
  | .RawD _ => False
/-- Every value of the elements is of the ordered kind. -/
def Value.AllOfOrderedKind : List (GoString × Value) → Prop
  | [] => True
  | (_, v) :: rest => Value.OfOrderedKind v ∧ Value.AllOfOrderedKind rest
end

/-- The raw value of a value of the ordered kind: its BSON type tag and payload bytes; for a
nested `D` the tag `0x03` and its own encoding. -/
def Value.toRaw (T : TypeTable) : Value → Raw
  | .plain (.int32 v) => ⟨0x10, le32 (v % 2 ^ 32).toNat⟩
  | .plain (.bool b) => ⟨0x08, [if b then 1 else 0]⟩
  | .D d =>
    match D.MarshalBSON T d with
    | .ok b => ⟨0x03, b⟩
    | .error _ => ⟨0x03, []⟩
  | _ => ⟨0, []⟩

/-- The `RawD` with the same names in the same order and each value replaced by its raw
value. -/
def D.toRawD (T : TypeTable) (d : D) : RawD :=
  d.map (fun e => ⟨e.1, Value.toRaw T e.2⟩)

/-- What `appendToDoc` is to append for the entry `(k, v)`: a sub-document element named `k`
for a `D`, an `M` or a `RawD`, the generic encoder's element otherwise. -/
def appendToDoc.Appends (T : TypeTable) (entry : GoString × Value) (elem : Element) : Prop :=
  match entry.2 with
  | .plain p => elem = EC.Interface entry.1 p
  | .D d => ∃ sub, D.MarshalBSONDocument T d = .ok sub ∧ elem = EC.SubDocument entry.1 sub
  | .M m => ∃ sub, M.MarshalBSONDocument T m = .ok sub ∧ elem = EC.SubDocument entry.1 sub
  | .RawD r => ∃ sub, RawD.MarshalBSONDocument T r = .ok sub ∧ elem = EC.SubDocument entry.1 sub

/-! ## Further inputs -/

/-- The name `"x"`. -/
def xName : GoString := [0x78]

/-- The map `M{"foo": int32(1), "bar": false}` when `range` visits `"foo"` first. -/
def fooBarM : M := [(foo, .plain (.int32 1)), (bar, .plain (.bool false))]

/-- The map `M{"foo": int32(1), "bar": false}` when `range` visits `"bar"` first. -/
def barFooM : M := [(bar, .plain (.bool false)), (foo, .plain (.int32 1))]

/-- The 20 bytes with the `"bar"` element before the `"foo"` element. -/
def barFooBytes : List Byte :=
  [0x14, 0, 0, 0, 0x08, 0x62, 0x61, 0x72, 0, 0, 0x10, 0x66, 0x6f, 0x6f, 0, 1, 0, 0, 0, 0]

/-- The `D` with one boolean element whose name is a single zero byte. -/
def zeroNameD : D := [([0], .plain (.bool false))]

/-- A buffer with a correct length and terminator whose second element has the type byte
`0x7e`, after the valid boolean element `"bar"`. -/
def badTagBytes : List Byte :=
  [0x0e, 0, 0, 0, 0x08, 0x62, 0x61, 0x72, 0, 0, 0x7e, 0x61, 0, 0]

/-- A raw document whose data is not a payload of its kind: a document of declared length 5
without terminator. -/
def brokenRaw : RawD := [⟨xName, ⟨0x03, [5, 0, 0, 0, 1]⟩⟩]

mutual
/-- The value holds no `RawD`, at any depth of `D` and `M` values. -/
def Value.RawFree : Value → Prop
  | .plain _ => True
  | .D d => Value.AllRawFree d
  | .M m => Value.AllRawFree m
  | .RawD _ => False
/-- No value of the elements or entries holds a `RawD`. -/
def Value.AllRawFree : List (GoString × Value) → Prop
  | [] => True
  | (_, v) :: rest => Value.RawFree v ∧ Value.AllRawFree rest
end

/-- A document without `RawD`: an unsupported value (of which the generic encoder makes
`elem`), and an `M` nested in a `D`. -/
def rawFreeElems (elem : BVal) : List (GoString × Value) :=
  [(xName, .plain (.unsupported elem)), (foo, .D [(bar, .M [(foo, .plain (.int32 1))])])]

/-- A raw document of one element `"a"` whose data holds, after an int32, the bytes of a
boolean element `"b"`. -/
def joinedRaw : RawD := [⟨[0x61], ⟨0x10, [1, 0, 0, 0, 0x08, 0x62, 0, 1]⟩⟩]

/-- The raw document with the two elements `"a"` (int32) and `"b"` (boolean). -/
def splitRaw : RawD := [⟨[0x61], ⟨0x10, [1, 0, 0, 0]⟩⟩, ⟨[0x62], ⟨0x08, [1]⟩⟩]

/-- The 16 bytes that both `joinedRaw` and `splitRaw` encode to. -/
def joinedBytes : List Byte :=
  [0x10, 0, 0, 0, 0x10, 0x61, 0, 1, 0, 0, 0, 0x08, 0x62, 0, 1, 0]

mutual
/-- A value that the ordered encoder supports and that decodes again: an `int32` (in range), a
`bool`, a scalar of another type (with a type tag that the table recognises and a payload of
that type), a `D` or an `M` whose names have no zero byte and whose values are supported, or a
`RawD` that `MarshalBSONDocument` converts. -/
def Value.Supported (T : TypeTable) : Value → Prop
  | .plain (.int32 v) => -2 ^ 31 ≤ v ∧ v < 2 ^ 31
  | .plain (.bool _) => True
  | .plain (.other kind payload) => BVal.WF T (.other kind payload)
  | .plain (.map _) => False
  | .plain (.unsupported _) => False
  | .D d => Value.SupportedElems T d
  | .M m => Value.SupportedElems T m
  | .RawD r => ∃ doc, RawD.MarshalBSONDocument T r = .ok doc
/-- Every element or entry has a name without zero byte and a supported value. -/
def Value.SupportedElems (T : TypeTable) : List (GoString × Value) → Prop
  | [] => True
  | (name, v) :: rest => (0 : Byte) ∉ name ∧ Value.Supported T v ∧ Value.SupportedElems T rest
end

mutual
/-- The value with every nested `M` and `RawD` replaced by a `D`: an `M` by the `D` of its
entries in iteration order, a `RawD` by the `D` of the document that `MarshalBSONDocument`
converts it to; scalars and names are left as they are. -/
def Value.asD (T : TypeTable) : Value → Value
  | .plain p => .plain p
  | .D d => .D (Value.elemsAsD T d)
  | .M m => .D (Value.elemsAsD T m)
  | .RawD r =>
    match RawD.MarshalBSONDocument T r with
    | .ok doc => .D (Document.toD doc)
    | .error _ => .D []
/-- The elements or entries with the same names in the same order and each value replaced by
`Value.asD`. -/
def Value.elemsAsD (T : TypeTable) : List (GoString × Value) → List (GoString × Value)
  | [] => []
  | (name, v) :: rest => (name, Value.asD T v) :: Value.elemsAsD T rest
end

/-- A table with one type beyond int32, boolean and embedded document: the tag `0x12` with
eight bytes of payload (the 64-bit integer of BSON). -/
def withInt64 : TypeTable where
  payloadLen tag _ := if tag = 0x12 then some 8 else none

/-- The name `"n"`. -/
def nName : GoString := [0x6e]

/-- The 32 bytes of the document `{"foo": {"bar": false}, "n": int64(7)}`. -/
def mixedBytes : List Byte :=
  [0x20, 0, 0, 0, 0x03, 0x66, 0x6f, 0x6f, 0, 0x0b, 0, 0, 0, 0x08, 0x62, 0x61, 0x72, 0, 0, 0,
    0x12, 0x6e, 0, 7, 0, 0, 0, 0, 0, 0, 0, 0]

/-- The `D` that `mixedBytes` decodes to: `D{{"foo", D{{"bar", false}}}, {"n", int64(7)}}`. -/
def mixedBytesDecoded : D :=
  [(foo, .D [(bar, .plain (.bool false))]), (nName, .plain (.other 0x12 [7, 0, 0, 0, 0, 0, 0, 0]))]

/-- The `D` that holds an `M`, a 64-bit integer and a `RawD`: `D{{"foo", M{"bar": false}},
{"n", int64(7)}, {"bar", simpleRawD}}`. -/
def mixedD : D :=
  [(foo, .M [(bar, .plain (.bool false))]), (nName, .plain (.other 0x12 [7, 0, 0, 0, 0, 0, 0, 0])),
    (bar, .RawD simpleRawD)]

/-- The `D` with the `M` and the `RawD` of `mixedD` replaced by `D`: `D{{"foo", D{{"bar",
false}}}, {"n", int64(7)}, {"bar", D{{"foo", int32(1)}, {"bar", false}}}}`. -/
def mixedDecoded : D :=
  [(foo, .D [(bar, .plain (.bool false))]), (nName, .plain (.other 0x12 [7, 0, 0, 0, 0, 0, 0, 0])),
    (bar, .D simpleD)]

/-! # Theorems -/

/-! ## Lemmas on the raw encoder -/

theorem RawD_foldl_appendElem (r : RawD) (b : List Byte) :
    r.foldl RawD.appendElem b = b ++ RawD.body r := by
  induction r generalizing b with
  | nil => simp [RawD.body]
  | cons e r ih =>
    simp only [List.foldl_cons, ih]
    simp [RawD.body, RawD.appendElem, RawDocElem.bytes, List.append_assoc]

theorem PutUint32_eq (a0 a1 a2 a3 : Byte) (rest : List Byte) (v : Nat) :
    PutUint32 (a0 :: a1 :: a2 :: a3 :: rest) v = le32 v ++ rest := by
  simp [PutUint32, le32, Nat.shiftRight_eq_div_pow]

theorem RawD_MarshalBSON_eq (r : RawD) :
    RawD.MarshalBSON r = .ok (le32 (uint32 (RawD.size r)) ++ RawD.body r ++ [0]) := by
  simp only [RawD.MarshalBSON, RawD_foldl_appendElem]
  simp [PutUint32_eq, RawD.size]

/-! ## Lemmas on little-endian lengths -/

theorem byte_val (v : Nat) : (byte v).val = v % 256 := rfl

theorem le32_length (v : Nat) : (le32 v).length = 4 := rfl

theorem Uint32_le32_append (v : Nat) (rest : List Byte) :
    Uint32 (le32 v ++ rest) = v % 2 ^ 32 := by
  simp only [Uint32, le32, List.cons_append, List.nil_append, List.getD_cons_zero,
    List.getD_cons_succ, byte_val]
  omega

theorem le32_uint32 (v : Nat) : le32 (uint32 v) = le32 v := by
  simp only [le32, uint32, List.cons.injEq, and_true]
  refine ⟨?_, ?_, ?_, ?_⟩ <;> apply Fin.ext <;> simp only [byte_val] <;> omega

theorem readi32_le32_append (v : Nat) (rest : List Byte) (h : v < 2 ^ 31) :
    readi32 (le32 v ++ rest) = (v : Int) := by
  have h1 : v % 2 ^ 32 = v := Nat.mod_eq_of_lt (by omega)
  simp only [readi32, Uint32_le32_append, h1]
  rw [if_pos h]

/-! ## Lemmas on the raw decoder -/

theorem readCString_append (name rest : List Byte) (h : (0 : Byte) ∉ name) :
    readCString (name ++ 0 :: rest) = some (name, rest) := by
  induction name with
  | nil => simp [readCString]
  | cons c name ih =>
    have hc : c ≠ 0 := fun hc => h (by simp [hc])
    have hn : (0 : Byte) ∉ name := fun hn => h (by simp [hn])
    simp [readCString, hc, ih hn]

theorem Next_bytes (T : TypeTable) (e : RawDocElem) (rest : List Byte)
    (h : RawDocElem.WellFormed T e) :
    ReaderIterator.Next T ⟨RawDocElem.bytes e ++ rest⟩
      = .element ⟨e.Value.Kind, e.Name, e.Value.Data⟩ ⟨rest⟩ := by
  have h1 : readCString (e.Name ++ 0 :: (e.Value.Data ++ rest))
      = some (e.Name, e.Value.Data ++ rest) := readCString_append _ _ h.name
  simp only [ReaderIterator.Next, RawDocElem.bytes, List.append_assoc, List.singleton_append,
    List.cons_append, List.nil_append, if_neg h.kind, h1, h.data]
  simp

theorem RawD_body_cons (e : RawDocElem) (r : RawD) :
    RawD.body (e :: r) = RawDocElem.bytes e ++ RawD.body r := by
  simp [RawD.body]

theorem RawD_loop_body (T : TypeTable) (r : RawD) (h : RawD.WellFormed T r) :
    ∀ (fuel : Nat) (junk : List Byte) (acc : RawD), r.length < fuel →
      RawD.UnmarshalBSON.loop T fuel ⟨RawD.body r ++ 0 :: junk⟩ acc = .ok (acc ++ r) := by
  induction r with
  | nil =>
    intro fuel junk acc hf
    obtain ⟨n, rfl⟩ : ∃ n, fuel = n + 1 := ⟨fuel - 1, by simp at hf; omega⟩
    simp [RawD.UnmarshalBSON.loop, RawD.body, ReaderIterator.Next]
  | cons e r ih =>
    intro fuel junk acc hf
    obtain ⟨n, rfl⟩ : ∃ n, fuel = n + 1 := ⟨fuel - 1, by simp at hf; omega⟩
    have he : RawDocElem.WellFormed T e := h e (by simp)
    have hr : RawD.WellFormed T r := fun x hx => h x (by simp [hx])
    simp only [RawD.UnmarshalBSON.loop, RawD_body_cons, List.append_assoc, Next_bytes T e _ he,
      ReaderElement.MarshalBSON]
    rw [ih hr n junk _ (by simp at hf; omega)]
    have hd : List.drop (1 + e.Name.length + 1)
        ([e.Value.Kind] ++ (e.Name ++ ([0] ++ e.Value.Data))) = e.Value.Data := by
      have : ([e.Value.Kind] ++ (e.Name ++ ([0] ++ e.Value.Data)))
          = ([e.Value.Kind] ++ e.Name ++ [0]) ++ e.Value.Data := by simp
      rw [this, List.drop_left' (by simp; omega)]
    rw [hd]
    simp

theorem RawD_body_length_ge (r : RawD) : 2 * r.length ≤ (RawD.body r).length := by
  induction r with
  | nil => simp
  | cons e r ih =>
    simp only [RawD_body_cons, List.length_append, List.length_cons, RawDocElem.bytes]
    simp
    omega

theorem NewReaderIterator_encoded (n : Nat) (body : List Byte) (h : n = body.length + 5)
    (hn : n < 2 ^ 31) :
    NewReaderIterator (le32 n ++ body ++ [0]) = .ok ⟨body ++ [0]⟩ := by
  have hlen : (le32 n ++ body ++ [0]).length = n := by simp [le32_length, h]; omega
  have hr : readi32 (le32 n ++ body ++ [0]) = (n : Int) := by
    rw [List.append_assoc]; exact readi32_le32_append n _ hn
  simp only [NewReaderIterator, hr, hlen]
  rw [if_neg (by omega), if_neg (by omega)]
  simp only [Int.toNat_ofNat]
  rw [List.take_of_length_le (by omega)]
  simp [le32]

theorem RawD_decode_MarshalBSON (T : TypeTable) (r : RawD) (h : RawD.WellFormed T r)
    (hsize : RawD.size r < 2 ^ 31) :
    ∃ b, RawD.MarshalBSON r = .ok b ∧ RawD.decode T b = .ok r := by
  refine ⟨_, RawD_MarshalBSON_eq r, ?_⟩
  rw [le32_uint32]
  have hit := NewReaderIterator_encoded (RawD.size r) (RawD.body r) rfl hsize
  simp only [RawD.decode, hit]
  exact RawD_loop_body T r h _ [] []
    (by have := RawD_body_length_ge r; simp; omega)

/-! ## Lemmas on the iterator -/

theorem mapExcept_map {α β : Type} (f : β → Except Error α) (g : α → β) (l : List α)
    (h : ∀ x ∈ l, f (g x) = .ok x) : mapExcept f (l.map g) = .ok l := by
  induction l with
  | nil => rfl
  | cons a l ih =>
    have ha : f (g a) = .ok a := h a (by simp)
    have hl : mapExcept f (l.map g) = .ok l := ih (fun x hx => h x (by simp [hx]))
    simp [mapExcept, ha, hl]

theorem collect_body (T : TypeTable) (r : RawD) (h : RawD.WellFormed T r) :
    ∀ (fuel : Nat) (junk : List Byte), r.length < fuel →
      ReaderIterator.collect T fuel ⟨RawD.body r ++ 0 :: junk⟩
        = .ok (r.map RawDocElem.toReader) := by
  induction r with
  | nil =>
    intro fuel junk hf
    obtain ⟨n, rfl⟩ : ∃ n, fuel = n + 1 := ⟨fuel - 1, by simp at hf; omega⟩
    simp [ReaderIterator.collect, RawD.body, ReaderIterator.Next]
  | cons e r ih =>
    intro fuel junk hf
    obtain ⟨n, rfl⟩ : ∃ n, fuel = n + 1 := ⟨fuel - 1, by simp at hf; omega⟩
    have he : RawDocElem.WellFormed T e := h e (by simp)
    have hr : RawD.WellFormed T r := fun x hx => h x (by simp [hx])
    simp only [ReaderIterator.collect, RawD_body_cons, List.append_assoc, Next_bytes T e _ he]
    rw [ih hr n junk (by simp at hf; omega)]
    simp [RawDocElem.toReader]

theorem frame_eq (body : List Byte) :
    frame body = le32 (body.length + 5) ++ body ++ [0] := by
  simp [frame, le32_uint32]

theorem frame_length (body : List Byte) : (frame body).length = body.length + 5 := by
  simp [frame_eq, le32_length]; omega

theorem readElements_frame (T : TypeTable) (r : RawD) (h : RawD.WellFormed T r)
    (hsize : RawD.size r < 2 ^ 31) :
    readElements T (frame (RawD.body r)) = .ok (r.map RawDocElem.toReader) := by
  have hit := NewReaderIterator_encoded (RawD.size r) (RawD.body r) rfl hsize
  rw [frame_eq]
  simp only [readElements]
  rw [show (RawD.body r).length + 5 = RawD.size r from rfl, hit]
  exact collect_body T r h _ []
    (by have := RawD_body_length_ge r; simp; omega)

/-! ## Lemmas on the document model -/

theorem Document_body_eq (d : Document) : Document.body d = RawD.body (d.map Element.toRaw) := by
  induction d with
  | nil => simp [Document.body, RawD.body]
  | cons e d ih =>
    obtain ⟨k, v⟩ := e
    simp [Document.body, RawD_body_cons, ih, RawDocElem.bytes, Element.toRaw]

theorem Document_WF_iff (T : TypeTable) (d : Document) :
    Document.WF T d ↔ ∀ e ∈ d, (0 : Byte) ∉ e.1 ∧ BVal.WF T e.2 := by
  induction d with
  | nil => simp [Document.WF]
  | cons e d ih =>
    obtain ⟨k, v⟩ := e
    simp [Document.WF, ih, and_assoc]

theorem Document_payload_le (d : Document) (e : Element) (he : e ∈ d) :
    e.2.payload.length + 2 ≤ (Document.body d).length := by
  induction d with
  | nil => simp at he
  | cons x d ih =>
    obtain ⟨k, v⟩ := x
    simp only [Document.body, List.length_append, List.length_cons, List.length_nil]
    rcases List.mem_cons.mp he with rfl | h
    · simp; omega
    · have := ih h; omega

theorem readi32_frame_append (body rest : List Byte) (h : body.length + 5 < 2 ^ 31) :
    readi32 (frame body ++ rest) = ((body.length + 5 : Nat) : Int) := by
  rw [frame_eq, List.append_assoc, List.append_assoc]
  exact readi32_le32_append _ _ h

theorem readi32_le32_int (v : Int) (h1 : -2 ^ 31 ≤ v) (h2 : v < 2 ^ 31) :
    readi32 (le32 (v % 2 ^ 32).toNat) = v := by
  have h := Uint32_le32_append (v % 2 ^ 32).toNat []
  rw [List.append_nil] at h
  have hnn : 0 ≤ v % 2 ^ 32 := Int.emod_nonneg _ (by norm_num)
  have hlt : v % 2 ^ 32 < 2 ^ 32 := Int.emod_lt_of_pos _ (by norm_num)
  have hm : (v % 2 ^ 32).toNat % 2 ^ 32 = (v % 2 ^ 32).toNat := Nat.mod_eq_of_lt (by omega)
  simp only [readi32, h, hm]
  split <;> omega

theorem driverTypes_other (T : TypeTable) (kind : Byte) (bs : List Byte)
    (h1 : kind ≠ TypeInt32) (h2 : kind ≠ TypeBoolean) (h3 : kind ≠ TypeEmbeddedDocument) :
    (driverTypes T).payloadLen kind bs = T.payloadLen kind bs := by
  simp [driverTypes, h1, h2, h3]

theorem driverTypes_testedTypes : driverTypes testedTypes = testedTypes := by
  simp only [driverTypes, testedTypes, TypeTable.mk.injEq]
  funext tag bs
  split
  · rfl
  · split
    · rfl
    · split <;> rfl

theorem BVal_WF_valid (T : TypeTable) (v : BVal) (h : BVal.WF T v) : BVal.Valid T v := by
  cases v with
  | int32 i => simp [BVal.Valid]
  | boolean b => simp [BVal.Valid]
  | document d => simp [BVal.Valid]
  | other kind payload =>
    simp only [BVal.WF] at h
    obtain ⟨h0, h1, h2, h3, hp⟩ := h
    exact ⟨h0, fun rest => by rw [driverTypes_other T kind _ h1 h2 h3]; exact hp rest⟩

theorem Element_toRaw_wellFormed (T : TypeTable) (e : Element) (h0 : (0 : Byte) ∉ e.1)
    (hv : BVal.Valid T e.2) (hsz : e.2.payload.length < 2 ^ 31) :
    RawDocElem.WellFormed (driverTypes T) (Element.toRaw e) := by
  obtain ⟨k, v⟩ := e
  cases v with
  | int32 i =>
    refine ⟨h0, by simp [Element.toRaw, BVal.Kind, TypeInt32], fun rest => ?_⟩
    simp [Element.toRaw, BVal.Kind, BVal.payload, driverTypes, le32_length]
  | boolean b =>
    refine ⟨h0, by simp [Element.toRaw, BVal.Kind, TypeBoolean], fun rest => ?_⟩
    simp [Element.toRaw, BVal.Kind, BVal.payload, driverTypes, TypeInt32, TypeBoolean]
  | document d =>
    refine ⟨h0, by simp [Element.toRaw, BVal.Kind, TypeEmbeddedDocument], fun rest => ?_⟩
    have hlen : (Document.body d).length + 5 < 2 ^ 31 := by
      simpa [BVal.payload, frame_length] using hsz
    have hr := readi32_frame_append (Document.body d) rest hlen
    simp only [Element.toRaw, BVal.Kind, BVal.payload, driverTypes, TypeInt32, TypeBoolean,
      TypeEmbeddedDocument, hr]
    simp [frame_length]
    omega
  | other kind payload =>
    simp only [BVal.Valid] at hv
    exact ⟨h0, hv.1, hv.2⟩

theorem Document_toRaw_wellFormed (T : TypeTable) (d : Document)
    (h : ∀ e ∈ d, (0 : Byte) ∉ e.1) (hval : ∀ e ∈ d, BVal.Valid T e.2)
    (hsize : (Document.body d).length + 5 < 2 ^ 31) :
    RawD.WellFormed (driverTypes T) (d.map Element.toRaw) := by
  intro x hx
  obtain ⟨e, he, rfl⟩ := List.mem_map.mp hx
  have := Document_payload_le d e he
  exact Element_toRaw_wellFormed T e (h e he) (hval e he) (by omega)

theorem interpret_toReader (T : TypeTable) (sub : List Byte → Except Error Document) (e : Element)
    (hv : BVal.WF T e.2)
    (hsub : ∀ d, e.2 = .document d → sub (frame (Document.body d)) = .ok d) :
    ReaderElement.interpret sub (RawDocElem.toReader (Element.toRaw e)) = .ok e := by
  obtain ⟨k, v⟩ := e
  cases v with
  | int32 i =>
    simp only [BVal.WF] at hv
    have hr := readi32_le32_int i hv.1 hv.2
    simp only [ReaderElement.interpret, RawDocElem.toReader, Element.toRaw, BVal.Kind,
      BVal.payload, hr]
    simp
  | boolean b =>
    cases b <;>
      simp [ReaderElement.interpret, RawDocElem.toReader, Element.toRaw, BVal.Kind, BVal.payload,
        TypeInt32, TypeBoolean]
  | document d =>
    simp [ReaderElement.interpret, RawDocElem.toReader, Element.toRaw, BVal.Kind, BVal.payload,
      TypeInt32, TypeBoolean, TypeEmbeddedDocument, hsub d rfl]
  | other kind payload =>
    simp only [BVal.WF] at hv
    obtain ⟨_, h1, h2, h3, _⟩ := hv
    simp [ReaderElement.interpret, RawDocElem.toReader, Element.toRaw, BVal.Kind, BVal.payload,
      h1, h2, h3]

theorem UnmarshalDocument_go_frame (T : TypeTable) :
    ∀ (fuel : Nat) (d : Document), Document.WF T d → (Document.body d).length + 5 < 2 ^ 31 →
      (Document.body d).length < fuel →
      UnmarshalDocument.go T fuel (frame (Document.body d)) = .ok d := by
  intro fuel
  induction fuel with
  | zero => intro d _ _ h; omega
  | succ n ih =>
    intro d hwf hsize hfuel
    have hre : readElements (driverTypes T) (frame (Document.body d))
        = .ok ((d.map Element.toRaw).map RawDocElem.toReader) := by
      rw [Document_body_eq]
      refine readElements_frame (driverTypes T) _ (Document_toRaw_wellFormed T d
        (fun e he => ((Document_WF_iff T d).mp hwf e he).1)
        (fun e he => BVal_WF_valid T e.2 ((Document_WF_iff T d).mp hwf e he).2) hsize) ?_
      simpa [RawD.size, ← Document_body_eq] using hsize
    simp only [UnmarshalDocument.go, hre, List.map_map]
    refine mapExcept_map _ _ d ?_
    intro e he
    have hwfe := (Document_WF_iff T d).mp hwf e he
    have hle := Document_payload_le d e he
    refine interpret_toReader T _ e hwfe.2 ?_
    intro sub hsub
    have hp : e.2.payload.length = (Document.body sub).length + 5 := by
      rw [hsub]; simp [BVal.payload, frame_length]
    refine ih sub ?_ (by omega) (by omega)
    have := hwfe.2
    rw [hsub] at this
    simpa [BVal.WF] using this

theorem UnmarshalDocument_frame (T : TypeTable) (d : Document) (hwf : Document.WF T d)
    (hsize : (Document.body d).length + 5 < 2 ^ 31) :
    UnmarshalDocument T (frame (Document.body d)) = .ok d :=
  UnmarshalDocument_go_frame T _ d hwf hsize (by rw [frame_length]; omega)

/-! ## Lemmas on the ordered encoder -/

theorem appendToDoc_shape (T : TypeTable) (doc doc' : Document) (key : GoString) (v : Value)
    (h : appendToDoc T doc key v = .ok doc') : ∃ bv, doc' = doc ++ [(key, bv)] := by
  cases v with
  | plain p =>
    simp only [appendToDoc, EC.Interface, Except.ok.injEq] at h
    exact ⟨_, h.symm⟩
  | D d =>
    simp only [appendToDoc] at h
    split at h
    · cases h
    · simp only [EC.SubDocument, Except.ok.injEq] at h
      exact ⟨_, h.symm⟩
  | M m =>
    simp only [appendToDoc] at h
    split at h
    · cases h
    · simp only [EC.SubDocument, Except.ok.injEq] at h
      exact ⟨_, h.symm⟩
  | RawD r =>
    simp only [appendToDoc] at h
    split at h
    · cases h
    · simp only [EC.SubDocument, Except.ok.injEq] at h
      exact ⟨_, h.symm⟩

theorem D_loop_keys (T : TypeTable) (d : List (GoString × Value)) :
    ∀ (doc doc' : Document), D.MarshalBSONDocument.loop T d doc = .ok doc' →
      doc'.map Prod.fst = doc.map Prod.fst ++ d.map Prod.fst := by
  induction d with
  | nil =>
    intro doc doc' h
    simp only [D.MarshalBSONDocument.loop, Except.ok.injEq] at h
    simp [h]
  | cons e d ih =>
    intro doc doc' h
    obtain ⟨name, v⟩ := e
    simp only [D.MarshalBSONDocument.loop] at h
    split at h
    · cases h
    · rename_i doc1 h1
      obtain ⟨bv, rfl⟩ := appendToDoc_shape T _ _ _ _ h1
      rw [ih _ _ h]
      simp

theorem M_loop_keys (T : TypeTable) (m : List (GoString × Value)) :
    ∀ (doc doc' : Document), M.MarshalBSONDocument.loop T m doc = .ok doc' →
      doc'.map Prod.fst = doc.map Prod.fst ++ m.map Prod.fst := by
  induction m with
  | nil =>
    intro doc doc' h
    simp only [M.MarshalBSONDocument.loop, Except.ok.injEq] at h
    simp [h]
  | cons e m ih =>
    intro doc doc' h
    obtain ⟨name, v⟩ := e
    simp only [M.MarshalBSONDocument.loop] at h
    split at h
    · cases h
    · rename_i doc1 h1
      obtain ⟨bv, rfl⟩ := appendToDoc_shape T _ _ _ _ h1
      rw [ih _ _ h]
      simp

mutual
theorem appendToDoc_ordered (T : TypeTable) :
    ∀ (v : Value) (doc : Document) (key : GoString), Value.Ordered T v →
      appendToDoc T doc key v = .ok (doc ++ [(key, Value.toBVal T v)])
  | .plain p, doc, key, _ => by simp [appendToDoc, EC.Interface, Value.toBVal]
  | .D d, doc, key, h => by
    have hd := D_loop_ordered T d [] (by simpa [Value.Ordered] using h)
    simp [appendToDoc, hd, EC.SubDocument, Value.toBVal]
  | .M m, doc, key, h => by simp [Value.Ordered] at h
  | .RawD r, doc, key, h => by simp [Value.Ordered] at h
theorem D_loop_ordered (T : TypeTable) :
    ∀ (d : List (GoString × Value)) (doc : Document), Value.OrderedElems T d →
      D.MarshalBSONDocument.loop T d doc = .ok (doc ++ Value.toDocument T d)
  | [], doc, _ => by simp [D.MarshalBSONDocument.loop, Value.toDocument]
  | (name, v) :: rest, doc, h => by
    simp only [Value.OrderedElems] at h
    have h1 := appendToDoc_ordered T v doc name h.2.1
    have h2 := D_loop_ordered T rest (doc ++ [(name, Value.toBVal T v)]) h.2.2
    simp [D.MarshalBSONDocument.loop, h1, h2, Value.toDocument]
end

mutual
theorem Value_toBVal_WF (T : TypeTable) :
    ∀ (v : Value), Value.Ordered T v → BVal.WF T (Value.toBVal T v)
  | .plain (.int32 i), h => by
    simpa [Value.toBVal, EC.Interface.value, BVal.WF, Value.Ordered] using h
  | .plain (.bool b), _ => by simp [Value.toBVal, EC.Interface.value, BVal.WF]
  | .plain (.other kind payload), h => by
    simpa [Value.toBVal, EC.Interface.value, Value.Ordered] using h
  | .plain (.map m), h => by simp [Value.Ordered] at h
  | .plain (.unsupported _), h => by simp [Value.Ordered] at h
  | .D d, h => by
    have := Value_toDocument_WF T d (by simpa [Value.Ordered] using h)
    simpa [Value.toBVal, BVal.WF] using this
  | .M m, h => by simp [Value.Ordered] at h
  | .RawD r, h => by simp [Value.Ordered] at h
theorem Value_toDocument_WF (T : TypeTable) :
    ∀ (d : List (GoString × Value)), Value.OrderedElems T d →
      Document.WF T (Value.toDocument T d)
  | [], _ => by simp [Value.toDocument, Document.WF]
  | (name, v) :: rest, h => by
    simp only [Value.OrderedElems] at h
    simp only [Value.toDocument, Document.WF]
    exact ⟨h.1, Value_toBVal_WF T v h.2.1, Value_toDocument_WF T rest h.2.2⟩
end

theorem Value_toDocument_eq_map (T : TypeTable) (d : List (GoString × Value)) :
    Value.toDocument T d = d.map (fun e => (e.1, Value.toBVal T e.2)) := by
  induction d with
  | nil => rfl
  | cons e d ih =>
    obtain ⟨name, v⟩ := e
    simp [Value.toDocument, ih]

theorem Value_OrderedElems_iff (T : TypeTable) (d : List (GoString × Value)) :
    Value.OrderedElems T d ↔ ∀ e ∈ d, (0 : Byte) ∉ e.1 ∧ Value.Ordered T e.2 := by
  induction d with
  | nil => simp [Value.OrderedElems]
  | cons e d ih =>
    obtain ⟨name, v⟩ := e
    simp [Value.OrderedElems, ih, and_assoc]

/-! ## Lemmas on the ordered decoder -/

theorem D_elem_ordered (T : TypeTable) (sub : List Byte → Except Error D) (e : GoString × Value)
    (hv : Value.Ordered T e.2)
    (hsub : ∀ d, e.2 = .D d → sub (frame (Document.body (Value.toDocument T d))) = .ok d) :
    D.UnmarshalBSON.elem sub (e.1, Value.toBVal T e.2) = .ok e := by
  obtain ⟨name, v⟩ := e
  match v, hv, hsub with
  | .plain (.int32 i), _, _ =>
    simp [D.UnmarshalBSON.elem, Element.Value, Element.Key, Value.toBVal, EC.Interface.value,
      BVal.Interface]
  | .plain (.bool b), _, _ =>
    simp [D.UnmarshalBSON.elem, Element.Value, Element.Key, Value.toBVal, EC.Interface.value,
      BVal.Interface]
  | .plain (.other kind payload), _, _ =>
    simp [D.UnmarshalBSON.elem, Element.Value, Element.Key, Value.toBVal, EC.Interface.value,
      BVal.Interface]
  | .plain (.map m), hv, _ => simp [Value.Ordered] at hv
  | .plain (.unsupported _), hv, _ => simp [Value.Ordered] at hv
  | .D d, _, hsub =>
    simp [D.UnmarshalBSON.elem, Element.Value, Element.Key, Value.toBVal, BVal.ReaderDocument,
      hsub d rfl]
  | .M m, hv, _ => simp [Value.Ordered] at hv
  | .RawD r, hv, _ => simp [Value.Ordered] at hv

theorem D_decode_go_ordered (T : TypeTable) :
    ∀ (fuel : Nat) (d : D), Value.OrderedElems T d →
      (Document.body (Value.toDocument T d)).length + 5 < 2 ^ 31 →
      (Document.body (Value.toDocument T d)).length < fuel →
      D.decode.go T fuel (frame (Document.body (Value.toDocument T d))) = .ok d := by
  intro fuel
  induction fuel with
  | zero => intro d _ _ h; omega
  | succ n ih =>
    intro d hord hsize hfuel
    have hdoc := UnmarshalDocument_frame T (Value.toDocument T d) (Value_toDocument_WF T d hord)
      hsize
    simp only [D.decode.go, hdoc]
    rw [Value_toDocument_eq_map]
    refine mapExcept_map _ _ d ?_
    intro e he
    have hoe := (Value_OrderedElems_iff T d).mp hord e he
    refine D_elem_ordered T _ e hoe.2 ?_
    intro sub hsub
    have hmem : (e.1, Value.toBVal T e.2) ∈ Value.toDocument T d := by
      rw [Value_toDocument_eq_map]
      exact List.mem_map.mpr ⟨e, he, rfl⟩
    have hle := Document_payload_le _ _ hmem
    have hp : (Value.toBVal T e.2).payload.length
        = (Document.body (Value.toDocument T sub)).length + 5 := by
      rw [hsub]; simp [Value.toBVal, BVal.payload, frame_length]
    simp only at hle
    refine ih sub ?_ (by omega) (by omega)
    have := hoe.2
    rw [hsub] at this
    simpa [Value.Ordered] using this

theorem D_MarshalBSON_ordered (T : TypeTable) (d : D) (hord : Value.OrderedElems T d) :
    D.MarshalBSON T d = .ok (frame (Document.body (Value.toDocument T d))) := by
  have h := D_loop_ordered T d [] hord
  simp only [List.nil_append] at h
  simp [D.MarshalBSON, D.MarshalBSONDocument, h, Document.MarshalBSON]

theorem D_decode_MarshalBSON (T : TypeTable) (d : D) (hord : Value.OrderedElems T d)
    (hsize : ∀ b, D.MarshalBSON T d = .ok b → b.length < 2 ^ 31) :
    ∃ b, D.MarshalBSON T d = .ok b ∧ D.decode T b = .ok d := by
  refine ⟨_, D_MarshalBSON_ordered T d hord, ?_⟩
  have hs := hsize _ (D_MarshalBSON_ordered T d hord)
  rw [frame_length] at hs
  exact D_decode_go_ordered T _ d hord hs (by rw [frame_length]; omega)

/-! ## The test vectors of `bson_test.go` -/

theorem test_RawD_Marshal :
    RawD.MarshalBSON [] = .ok [5, 0, 0, 0, 0] ∧ RawD.MarshalBSON simpleRawD = .ok simpleBytes
      ∧ RawD.MarshalBSON nestedRawD = .ok nestedBytes := by decide

theorem test_RawD_Unmarshal :
    RawD.UnmarshalBSON testedTypes [] [5, 0, 0, 0, 0] = ([], none)
      ∧ RawD.UnmarshalBSON testedTypes [] simpleBytes = (simpleRawD, none)
      ∧ RawD.UnmarshalBSON testedTypes [] nestedBytes = (nestedRawD, none) := by decide

theorem test_D_Marshal :
    D.MarshalBSON testedTypes [] = .ok [5, 0, 0, 0, 0]
      ∧ D.MarshalBSON testedTypes simpleD = .ok simpleBytes
      ∧ D.MarshalBSON testedTypes nestedD = .ok nestedBytes := by decide

theorem test_D_Unmarshal :
    D.UnmarshalBSON testedTypes [] [5, 0, 0, 0, 0] = ([], none)
      ∧ D.UnmarshalBSON testedTypes [] simpleBytes = (simpleD, none)
      ∧ D.UnmarshalBSON testedTypes [] nestedBytes = (nestedD, none) := ⟨rfl, rfl, rfl⟩

theorem test_M_Marshal :
    M.MarshalBSON testedTypes [] = .ok [5, 0, 0, 0, 0]
      ∧ M.MarshalBSON testedTypes simpleD = .ok simpleBytes
      ∧ M.MarshalBSON testedTypes nestedM = .ok nestedBytes := by decide

theorem test_M_Unmarshal :
    M.UnmarshalBSON testedTypes [] [5, 0, 0, 0, 0] = ([], none)
      ∧ M.UnmarshalBSON testedTypes [] simpleBytes = (simpleD, none)
      ∧ M.UnmarshalBSON testedTypes [] nestedBytes = (nestedM, none) := ⟨rfl, rfl, rfl⟩

theorem test_RawD_MarshalBSONDocument :
    RawD.MarshalBSONDocument testedTypes [] = D.MarshalBSONDocument testedTypes []
      ∧ RawD.MarshalBSONDocument testedTypes simpleRawD
        = D.MarshalBSONDocument testedTypes simpleD
      ∧ RawD.MarshalBSONDocument testedTypes nestedRawD
        = D.MarshalBSONDocument testedTypes nestedD := ⟨rfl, rfl, rfl⟩

/-! ## Lemmas for the documents of 4 GiB and more -/

theorem body_replicate (n : Nat) (e : RawDocElem) :
    RawD.body (List.replicate (n + 1) e) = RawDocElem.bytes e ++ RawD.body (List.replicate n e) := by
  rw [List.replicate_succ, RawD_body_cons]

theorem body_replicate_length (n : Nat) (e : RawDocElem) :
    (RawD.body (List.replicate n e)).length = n * (RawDocElem.bytes e).length := by
  induction n with
  | zero => simp [RawD.body]
  | succ n ih => rw [body_replicate, List.length_append, ih]; ring

theorem loop_seven (T : TypeTable) (h : T.payloadLen 0x08 [0] = some 1) (n : Nat) (acc : RawD) :
    RawD.UnmarshalBSON.loop T (n + 2) ⟨[0x08, 0, 0]⟩ acc = .error .missingTerminator := by
  have h1 : ReaderIterator.Next T ⟨[0x08, 0, 0]⟩ = .element ⟨0x08, [], [0]⟩ ⟨[]⟩ := by
    simp [ReaderIterator.Next, readCString, h]
  have h2 : ReaderIterator.Next T ⟨[]⟩ = .failed .missingTerminator := rfl
  rw [RawD.UnmarshalBSON.loop]
  simp only [h1, ReaderElement.MarshalBSON]
  rw [RawD.UnmarshalBSON.loop]
  simp only [h2]

theorem decode_of_iterator_seven (T : TypeTable) (b : List Byte) (n : Nat)
    (hn : b.length + 1 = n + 2) (h : T.payloadLen 0x08 [0] = some 1)
    (hit : NewReaderIterator b = .ok ⟨[0x08, 0, 0]⟩) :
    RawD.decode T b = .error .missingTerminator := by
  unfold RawD.decode
  rw [hit]
  show RawD.UnmarshalBSON.loop T (b.length + 1) ⟨[0x08, 0, 0]⟩ [] = _
  rw [hn]
  exact loop_seven T h _ []

theorem decode_seven (T : TypeTable) (tail : List Byte) (h : T.payloadLen 0x08 [0] = some 1) :
    RawD.decode T (le32 7 ++ 0x08 :: 0 :: 0 :: tail) = .error .missingTerminator := by
  have hr : readi32 (le32 7 ++ 0x08 :: 0 :: 0 :: tail) = 7 :=
    readi32_le32_append 7 _ (by norm_num)
  have hit : NewReaderIterator (le32 7 ++ 0x08 :: 0 :: 0 :: tail) = .ok ⟨[0x08, 0, 0]⟩ := by
    simp only [NewReaderIterator, hr, List.length_append, le32_length, List.length_cons]
    rw [if_neg (by omega), if_neg (by omega)]
    simp [le32]
  refine decode_of_iterator_seven T _ (tail.length + 6) ?_ h hit
  simp only [List.length_append, le32_length, List.length_cons]
  omega

theorem RawD_UnmarshalBSON_error (T : TypeTable) (r : RawD) (b : List Byte) (err : Error)
    (h : RawD.decode T b = .error err) : RawD.UnmarshalBSON T r b = (r, some err) := by
  simp only [RawD.UnmarshalBSON, h]

theorem RawD_UnmarshalBSON_ok (T : TypeTable) (r newR : RawD) (b : List Byte)
    (h : RawD.decode T b = .ok newR) : RawD.UnmarshalBSON T r b = (newR, none) := by
  simp only [RawD.UnmarshalBSON, h]

theorem emptyNameBool_wellFormed : RawDocElem.WellFormed testedTypes emptyNameBool := by
  refine ⟨by simp [emptyNameBool], by simp [emptyNameBool], ?_⟩
  intro rest
  simp [emptyNameBool, testedTypes, TypeInt32, TypeBoolean]

theorem replicate_emptyNameBool (n : Nat) (h : uint32 ((n + 1) * 3 + 5) = 7) :
    ∃ b, RawD.MarshalBSON (List.replicate (n + 1) emptyNameBool) = .ok b ∧
      b.length = (n + 1) * 3 + 5 ∧
      RawD.UnmarshalBSON testedTypes [] b = ([], some .missingTerminator) := by
  have hlen : (RawD.body (List.replicate (n + 1) emptyNameBool)).length = (n + 1) * 3 := by
    rw [body_replicate_length]; rfl
  refine ⟨_, RawD_MarshalBSON_eq _, ?_, ?_⟩
  · simp only [List.length_append, le32_length, hlen, List.length_singleton]; omega
  · have hsize : uint32 (RawD.size (List.replicate (n + 1) emptyNameBool)) = 7 := by
      rw [RawD.size, hlen, h]
    have hd := decode_seven testedTypes (RawD.body (List.replicate n emptyNameBool) ++ [0])
      (by simp [testedTypes, TypeInt32, TypeBoolean])
    have hb : le32 7 ++ RawD.body (List.replicate (n + 1) emptyNameBool) ++ [0]
        = le32 7 ++ 0x08 :: 0 :: 0 :: (RawD.body (List.replicate n emptyNameBool) ++ [0]) := by
      rw [body_replicate]
      simp [RawDocElem.bytes, emptyNameBool]
    rw [hsize, hb]
    exact RawD_UnmarshalBSON_error testedTypes [] _ _ hd

/-! # The claims -/

theorem RawD_length_field (r : RawD) :
    ∃ b, RawD.MarshalBSON r = .ok b ∧ b.length = RawD.size r ∧
      Uint32 b = RawD.size r % 2 ^ 32 := by
  refine ⟨_, RawD_MarshalBSON_eq r, ?_, ?_⟩
  · simp [le32_length, RawD.size]; omega
  · rw [le32_uint32, List.append_assoc, Uint32_le32_append]

theorem zerosRaw_size (n : Nat) : RawD.size (zerosRaw n) = n + 7 := by
  simp only [RawD.size, RawD.body, zerosRaw, List.map, List.flatten, RawDocElem.bytes,
    List.length_append, List.length_replicate, List.length_cons, List.length_nil]
  omega

theorem RawD_MarshalBSON_front (r : RawD) :
    ∃ out, RawD.MarshalBSON r = .ok out ∧ out.length = RawD.size r ∧
      out.take 4 = le32 (RawD.size r % 2 ^ 32) := by
  refine ⟨_, RawD_MarshalBSON_eq r, ?_, ?_⟩
  · simp [le32_length, RawD.size]; omega
  · rw [List.append_assoc, List.take_left' (le32_length _)]
    rfl

/-- C1, as stated, fails: the raw document with one element of `2 ^ 32 - 2` data bytes encodes
to `2 ^ 32 + 5` bytes, and the four bytes `L` at the front of the output are `05 00 00 00`: they
encode 5, not the total length of the returned buffer. -/
theorem C1_counterexample :
    ∃ out, RawD.MarshalBSON (zerosRaw 4294967294) = .ok out ∧ out.length = 2 ^ 32 + 5 ∧
      out.take 4 = [5, 0, 0, 0] ∧ Uint32 (out.take 4) = 5 ∧
      Uint32 (out.take 4) ≠ out.length := by
  obtain ⟨out, hout, hlen, hfront⟩ := RawD_MarshalBSON_front (zerosRaw 4294967294)
  rw [zerosRaw_size] at hlen hfront
  have h5 : le32 ((4294967294 + 7) % 2 ^ 32) = [5, 0, 0, 0] := by decide
  rw [h5] at hfront
  have hu : Uint32 ([5, 0, 0, 0] : List Byte) = 5 := by decide
  refine ⟨out, hout, by rw [hlen]; norm_num, hfront, by rw [hfront, hu], ?_⟩
  rw [hfront, hu, hlen]
  norm_num

/-- C1, amended: for every `RawD` `r`, `RawD.MarshalBSON r` succeeds with exactly the bytes
`L ++ E_1 ++ ... ++ E_n ++ [0x00]`, where `E_i = [Kind_i] ++ Name_i ++ [0x00] ++ Data_i` for the
elements of `r` in order, with `Data_i` as it is, and `L` is the 4-byte little-endian encoding
of `uint32(len)`, the total length of the returned buffer modulo `2 ^ 32`: read as a
little-endian `uint32`, `L` is the total length modulo `2 ^ 32`, hence the total length itself
whenever the buffer is shorter than `2 ^ 32` bytes. -/
theorem C1_RawD_MarshalBSON_layout (r : RawD) :
    ∃ out L, RawD.MarshalBSON r = .ok out ∧
      out = L ++ (r.map fun e => [e.Value.Kind] ++ e.Name ++ [0] ++ e.Value.Data).flatten
        ++ [0] ∧
      L = le32 (uint32 out.length) ∧ L.length = 4 ∧ Uint32 L = out.length % 2 ^ 32 ∧
      (out.length < 2 ^ 32 → Uint32 L = out.length) := by
  have hlen : (le32 (uint32 (RawD.size r)) ++ RawD.body r ++ [0]).length = RawD.size r := by
    simp [le32_length, RawD.size]; omega
  have hu : Uint32 (le32 (uint32 (RawD.size r))) = RawD.size r % 2 ^ 32 := by
    have h := Uint32_le32_append (uint32 (RawD.size r)) []
    rw [List.append_nil] at h
    rw [h, uint32, Nat.mod_mod]
  refine ⟨_, le32 (uint32 (RawD.size r)), RawD_MarshalBSON_eq r, rfl, ?_, le32_length _, ?_,
    ?_⟩
  · rw [hlen]
  · rw [hlen]; exact hu
  · rw [hlen]
    intro hlt
    rw [hu, Nat.mod_eq_of_lt hlt]

/-- C2, as stated, fails: `manyBools` is well formed, yet its encoding of `2 ^ 32 + 7` bytes
carries the length prefix 7 and `RawD.UnmarshalBSON` rejects it, leaving the receiver as it
was. -/
theorem C2_counterexample :
    RawD.WellFormed testedTypes manyBools ∧
      ∃ b, RawD.MarshalBSON manyBools = .ok b ∧ b.length = 2 ^ 32 + 7 ∧
        RawD.UnmarshalBSON testedTypes [] b = ([], some .missingTerminator) :=
  ⟨fun _ he => List.eq_of_mem_replicate he ▸ emptyNameBool_wellFormed,
    replicate_emptyNameBool 1431655765 (by decide)⟩

/-- C2, amended: for every `RawD` `r` that is well formed for the type table and whose encoding
is shorter than `2 ^ 31` bytes, `RawD.MarshalBSON r` succeeds and `RawD.UnmarshalBSON` of the
bytes returns no error and sets the receiver to `r`. -/
theorem C2_RawD_roundtrip (T : TypeTable) (r r0 : RawD) (hwf : RawD.WellFormed T r)
    (hsize : RawD.size r < 2 ^ 31) :
    ∃ b, RawD.MarshalBSON r = .ok b ∧ b.length = RawD.size r ∧
      RawD.UnmarshalBSON T r0 b = (r, none) := by
  obtain ⟨b, hb, hd⟩ := RawD_decode_MarshalBSON T r hwf hsize
  refine ⟨b, hb, ?_, ?_⟩
  · have h := RawD_MarshalBSON_eq r
    rw [hb] at h
    cases h
    simp [le32_length, RawD.size]; omega
  · simp [RawD.UnmarshalBSON, hd]

theorem nestedRawD_wellFormed : RawD.WellFormed testedTypes nestedRawD := by
  intro e he
  simp only [nestedRawD, List.mem_singleton] at he
  subst he
  refine ⟨by decide, by decide, ?_⟩
  intro rest
  have hr : readi32 ([0x0b, 0, 0, 0, 0x08, 0x62, 0x61, 0x72, 0, 0, 0] ++ rest) = 11 :=
    readi32_le32_append 11 ([0x08, 0x62, 0x61, 0x72, 0, 0, 0] ++ rest) (by norm_num)
  simp only [testedTypes, TypeInt32, TypeBoolean, TypeEmbeddedDocument, hr]
  simp

/-- C2, amended, at the raw document of the test case "nested". -/
theorem C2_RawD_roundtrip_witness :
    RawD.WellFormed testedTypes nestedRawD ∧ RawD.size nestedRawD < 2 ^ 31 ∧
      ∃ b, RawD.MarshalBSON nestedRawD = .ok b ∧ b.length = RawD.size nestedRawD ∧
        RawD.UnmarshalBSON testedTypes [] b = (nestedRawD, none) :=
  ⟨nestedRawD_wellFormed, by decide,
    C2_RawD_roundtrip testedTypes nestedRawD [] nestedRawD_wellFormed (by decide)⟩

theorem nestedD_ordered : Value.OrderedElems testedTypes nestedD := by
  simp [nestedD, Value.OrderedElems, Value.Ordered, foo, bar]

theorem nestedD_small : ∀ b, D.MarshalBSON testedTypes nestedD = .ok b → b.length < 2 ^ 31 := by
  intro b hb
  have h : D.MarshalBSON testedTypes nestedD = .ok nestedBytes := by decide
  rw [h] at hb
  cases hb
  decide

/-- C4 at the failing input `M{"a": M{"b": M{}}}`: the encoding succeeds, and `M.UnmarshalBSON`
of the bytes succeeds with `M{"a": M{"b": map[string]interface{}{}}}`, whose inner document is
a bare map and which differs from the input. -/
theorem C4_failing_input :
    M.MarshalBSON testedTypes deepM = .ok deepMBytes ∧
      M.UnmarshalBSON testedTypes [] deepMBytes = (deepMDecoded, none) ∧
      deepMDecoded ≠ deepM := by
  refine ⟨by decide, rfl, ?_⟩
  intro h
  simp [deepMDecoded, deepM] at h

/-- C5: `MarshalBSON` of the empty `M`, the empty `D` and the empty `RawD` succeeds with exactly
the five bytes `05 00 00 00 00`. -/
theorem C5_empty_document (T : TypeTable) :
    M.MarshalBSON T [] = .ok [5, 0, 0, 0, 0] ∧ D.MarshalBSON T [] = .ok [5, 0, 0, 0, 0]
      ∧ RawD.MarshalBSON [] = .ok [5, 0, 0, 0, 0] :=
  ⟨rfl, rfl, by decide⟩

/-- C6, as stated, fails: the raw document with one element of `2 ^ 32` data bytes encodes to
`2 ^ 32 + 7` bytes, and the first four bytes of the output read as 7. -/
theorem C6_counterexample :
    ∃ b, RawD.MarshalBSON (zerosRaw (2 ^ 32)) = .ok b ∧ b.length = 2 ^ 32 + 7 ∧ Uint32 b = 7 ∧
      Uint32 b ≠ b.length := by
  obtain ⟨b, hb, hlen, hu⟩ := RawD_length_field (zerosRaw (2 ^ 32))
  rw [zerosRaw_size] at hlen hu
  have h7 : Uint32 b = 7 := by rw [hu]; norm_num
  exact ⟨b, hb, hlen, h7, by rw [h7, hlen]; norm_num⟩

theorem frame_length_field (body : List Byte) :
    Uint32 (frame body) = (frame body).length % 2 ^ 32 := by
  rw [frame_length, frame_eq, List.append_assoc, Uint32_le32_append]

theorem RawD_MarshalBSON_frame (r : RawD) : RawD.MarshalBSON r = .ok (frame (RawD.body r)) := by
  rw [RawD_MarshalBSON_eq]; rfl

theorem D_MarshalBSON_frame (T : TypeTable) (d : D) (b : List Byte)
    (h : D.MarshalBSON T d = .ok b) :
    ∃ doc, D.MarshalBSONDocument T d = .ok doc ∧ b = frame (Document.body doc) := by
  simp only [D.MarshalBSON] at h
  split at h
  · cases h
  · rename_i doc hdoc
    simp only [Document.MarshalBSON, Except.ok.injEq] at h
    exact ⟨doc, hdoc, h.symm⟩

theorem M_MarshalBSON_frame (T : TypeTable) (m : M) (b : List Byte)
    (h : M.MarshalBSON T m = .ok b) :
    ∃ doc, M.MarshalBSONDocument T m = .ok doc ∧ b = frame (Document.body doc) := by
  simp only [M.MarshalBSON, Marshal] at h
  split at h
  · cases h
  · rename_i doc hdoc
    simp only [Document.MarshalBSON, Except.ok.injEq] at h
    exact ⟨doc, hdoc, h.symm⟩

/-- C6, amended: for every document of any of the three representations for which `MarshalBSON`
succeeds, the first four bytes of the output read as a little-endian `uint32` equal the total
byte length of the output modulo `2 ^ 32`, hence the total byte length itself whenever the
output is shorter than `2 ^ 32` bytes. -/
theorem C6_length_field (T : TypeTable) (r : RawD) (d : D) (m : M) (b : List Byte)
    (h : RawD.MarshalBSON r = .ok b ∨ D.MarshalBSON T d = .ok b ∨ M.MarshalBSON T m = .ok b) :
    Uint32 b = b.length % 2 ^ 32 ∧ (b.length < 2 ^ 32 → Uint32 b = b.length) := by
  have hb : ∃ body, b = frame body := by
    rcases h with h | h | h
    · rw [RawD_MarshalBSON_frame] at h
      cases h
      exact ⟨_, rfl⟩
    · obtain ⟨doc, _, hb⟩ := D_MarshalBSON_frame T d b h
      exact ⟨_, hb⟩
    · obtain ⟨doc, _, hb⟩ := M_MarshalBSON_frame T m b h
      exact ⟨_, hb⟩
  obtain ⟨body, rfl⟩ := hb
  refine ⟨frame_length_field body, fun hlt => ?_⟩
  rw [frame_length_field, Nat.mod_eq_of_lt hlt]

/-- C6, amended, at the three documents of the test case "nested". -/
theorem C6_length_field_witness :
    (RawD.MarshalBSON nestedRawD = .ok nestedBytes
        ∨ D.MarshalBSON testedTypes nestedD = .ok nestedBytes
        ∨ M.MarshalBSON testedTypes nestedM = .ok nestedBytes) ∧
      Uint32 nestedBytes = nestedBytes.length % 2 ^ 32 ∧
      (nestedBytes.length < 2 ^ 32 → Uint32 nestedBytes = nestedBytes.length) :=
  ⟨Or.inl (by decide),
    C6_length_field testedTypes nestedRawD nestedD nestedM nestedBytes (Or.inl (by decide))⟩

/-- C7, as stated, fails: `embeddedRaw` has the one name `"a"`, it encodes, and the names read
from the encoded bytes are `"a"` and `"b"`. -/
theorem C7_counterexample :
    ∃ b, RawD.MarshalBSON embeddedRaw = .ok b ∧
      encodedNames testedTypes b = .ok [[0x61], [0x62]] ∧
      embeddedRaw.map RawDocElem.Name = [[0x61]] :=
  ⟨_, rfl, by decide, rfl⟩

theorem encodedNames_raw (T : TypeTable) (r : RawD) (hwf : RawD.WellFormed T r)
    (hsize : RawD.size r < 2 ^ 31) :
    encodedNames T (frame (RawD.body r)) = .ok (r.map RawDocElem.Name) := by
  simp only [encodedNames, readElements_frame T r hwf hsize, List.map_map]
  rfl

theorem encodedNames_document (T : TypeTable) (doc : Document)
    (h : ∀ e ∈ doc, (0 : Byte) ∉ e.1) (hval : ∀ e ∈ doc, BVal.Valid T e.2)
    (hsize : (Document.body doc).length + 5 < 2 ^ 31) :
    encodedNames (driverTypes T) (frame (Document.body doc)) = .ok (doc.map Prod.fst) := by
  have hwf := Document_toRaw_wellFormed T doc h hval hsize
  have hs : RawD.size (doc.map Element.toRaw) < 2 ^ 31 := by
    simpa [RawD.size, ← Document_body_eq] using hsize
  rw [Document_body_eq, encodedNames_raw (driverTypes T) _ hwf hs, List.map_map]
  rfl

theorem appendToDoc_valid (T : TypeTable) (doc doc' : Document) (key : GoString) (v : Value)
    (hv : Value.ValidOther T v) (h : appendToDoc T doc key v = .ok doc') :
    ∃ bv, doc' = doc ++ [(key, bv)] ∧ BVal.Valid T bv := by
  cases v with
  | plain p =>
    simp only [appendToDoc, EC.Interface, Except.ok.injEq] at h
    exact ⟨_, h.symm, hv⟩
  | D d =>
    simp only [appendToDoc] at h
    split at h
    · cases h
    · simp only [EC.SubDocument, Except.ok.injEq] at h
      exact ⟨_, h.symm, by simp [BVal.Valid]⟩
  | M m =>
    simp only [appendToDoc] at h
    split at h
    · cases h
    · simp only [EC.SubDocument, Except.ok.injEq] at h
      exact ⟨_, h.symm, by simp [BVal.Valid]⟩
  | RawD r =>
    simp only [appendToDoc] at h
    split at h
    · cases h
    · simp only [EC.SubDocument, Except.ok.injEq] at h
      exact ⟨_, h.symm, by simp [BVal.Valid]⟩

theorem D_loop_valid (T : TypeTable) (d : List (GoString × Value)) :
    ∀ (doc doc' : Document), D.MarshalBSONDocument.loop T d doc = .ok doc' →
      (∀ e ∈ d, Value.ValidOther T e.2) → (∀ e ∈ doc, BVal.Valid T e.2) →
      ∀ e ∈ doc', BVal.Valid T e.2 := by
  induction d with
  | nil =>
    intro doc doc' h _ hdoc
    simp only [D.MarshalBSONDocument.loop, Except.ok.injEq] at h
    rw [← h]
    exact hdoc
  | cons x d ih =>
    intro doc doc' h hd hdoc
    obtain ⟨name, v⟩ := x
    simp only [D.MarshalBSONDocument.loop] at h
    split at h
    · cases h
    · rename_i doc1 h1
      obtain ⟨bv, rfl, hbv⟩ := appendToDoc_valid T _ _ _ _ (hd (name, v) (by simp)) h1
      refine ih _ _ h (fun e he => hd e (by simp [he])) ?_
      intro e he
      rcases List.mem_append.mp he with he | he
      · exact hdoc e he
      · simp only [List.mem_singleton] at he
        rw [he]
        exact hbv

/-- C7, amended: for every `RawD` `r` that is well formed for the type table, and for every `D`
`d` whose names have no zero byte and whose scalars of types other than int32 and bool have a
valid payload of a recognised type, if the document encodes to fewer than `2 ^ 31` bytes then
the sequence of element names read from the encoded bytes, front to back, equals the sequence of
`Name` fields in the same order and with the same length, duplicates included. -/
theorem C7_names_in_order (T : TypeTable) (r : RawD) (d : D) (b : List Byte)
    (hsize : b.length < 2 ^ 31) :
    (RawD.WellFormed T r → RawD.MarshalBSON r = .ok b →
        encodedNames T b = .ok (r.map RawDocElem.Name)) ∧
      ((∀ e ∈ d, (0 : Byte) ∉ DocElem.Name e) →
        (∀ e ∈ d, Value.ValidOther T (DocElem.Value e)) → D.MarshalBSON T d = .ok b →
        encodedNames (driverTypes T) b = .ok (d.map DocElem.Name)) := by
  constructor
  · intro hwf hb
    rw [RawD_MarshalBSON_frame] at hb
    cases hb
    rw [frame_length] at hsize
    exact encodedNames_raw T r hwf hsize
  · intro hnames hvalid hb
    obtain ⟨doc, hdoc, rfl⟩ := D_MarshalBSON_frame T d b hb
    have hkeys := D_loop_keys T d [] doc hdoc
    simp only [List.map_nil, List.nil_append] at hkeys
    rw [frame_length] at hsize
    have hdocnames : ∀ e ∈ doc, (0 : Byte) ∉ e.1 := by
      intro e he
      have hmem : e.1 ∈ d.map Prod.fst := by
        rw [← hkeys]; exact List.mem_map.mpr ⟨e, he, rfl⟩
      obtain ⟨x, hx, hxe⟩ := List.mem_map.mp hmem
      rw [← hxe]
      exact hnames x hx
    have hdocvalid : ∀ e ∈ doc, BVal.Valid T e.2 :=
      D_loop_valid T d [] doc hdoc hvalid (fun e he => by simp at he)
    rw [encodedNames_document T doc hdocnames hdocvalid hsize, hkeys]
    rfl

/-- C7, amended, at the `RawD` and the `D` of the test case "simple", which encode to the same
20 bytes. -/
theorem C7_names_in_order_witness :
    simpleBytes.length < 2 ^ 31 ∧
      encodedNames testedTypes simpleBytes = .ok (simpleRawD.map RawDocElem.Name) ∧
      encodedNames (driverTypes testedTypes) simpleBytes = .ok (simpleD.map DocElem.Name) :=
  ⟨by decide,
    (C7_names_in_order testedTypes simpleRawD simpleD simpleBytes (by decide)).1
      (by
        intro e he
        simp only [simpleRawD, List.mem_cons, List.mem_singleton, List.not_mem_nil,
          or_false] at he
        rcases he with rfl | rfl
        · exact ⟨by decide, by decide, fun rest => by simp [testedTypes, TypeInt32]⟩
        · exact ⟨by decide, by decide,
            fun rest => by simp [testedTypes, TypeInt32, TypeBoolean]⟩)
      (by decide),
    (C7_names_in_order testedTypes simpleRawD simpleD simpleBytes (by decide)).2
      (by
        intro e he
        simp only [simpleD, List.mem_cons, List.mem_singleton, List.not_mem_nil,
          or_false] at he
        rcases he with rfl | rfl <;> decide)
      (by
        intro e he
        simp only [simpleD, List.mem_cons, List.mem_singleton, List.not_mem_nil,
          or_false] at he
        rcases he with rfl | rfl <;>
          simp [DocElem.Value, Value.ValidOther, EC.Interface.value, BVal.Valid])
      (by decide)⟩

/-! ## Lemmas on Go maps and on the unordered decoder -/

theorem GoMap_set_append {α : Type} (pre suf : List (GoString × α)) (k : GoString) (x v : α)
    (h : k ∉ pre.map Prod.fst) :
    GoMap.set (pre ++ (k, x) :: suf) k v = pre ++ (k, v) :: suf := by
  induction pre with
  | nil => simp [GoMap.set]
  | cons e pre ih =>
    obtain ⟨k', x'⟩ := e
    have hne : k' ≠ k := fun hk => h (by simp [hk])
    have hpre : k ∉ pre.map Prod.fst := fun hk => h (by simp [hk])
    simp [GoMap.set, hne, ih hpre]

theorem GoMap_set_keys {α : Type} (m : List (GoString × α)) (k : GoString) (v : α) :
    (GoMap.set m k v).map Prod.fst
      = if k ∈ m.map Prod.fst then m.map Prod.fst else m.map Prod.fst ++ [k] := by
  induction m with
  | nil => simp [GoMap.set]
  | cons e m ih =>
    obtain ⟨k', x'⟩ := e
    by_cases hk : k' = k
    · simp [GoMap.set, hk]
    · have hk' : ¬ k = k' := fun h => hk h.symm
      simp only [GoMap.set, hk, if_false, List.map_cons, ih, List.mem_cons, hk', false_or]
      split <;> simp

theorem GoMap_set_nodup {α : Type} (m : List (GoString × α)) (k : GoString) (v : α)
    (h : (m.map Prod.fst).Nodup) : ((GoMap.set m k v).map Prod.fst).Nodup := by
  rw [GoMap_set_keys]
  split
  · exact h
  · rename_i hk
    exact List.Nodup.append h (List.nodup_singleton k) (by simpa using hk)

theorem Unmarshal_nodup (T : TypeTable) (b : List Byte) (g : List (GoString × Value))
    (h : Unmarshal T b [] = .ok g) : (g.map Prod.fst).Nodup := by
  simp only [Unmarshal] at h
  split at h
  · cases h
  · rename_i doc _
    simp only [Except.ok.injEq] at h
    subst h
    have key : ∀ (l : Document) (m : List (GoString × Value)), (m.map Prod.fst).Nodup →
        ((l.foldl (fun m e => GoMap.set m e.Key (.plain e.Value.Interface)) m).map
          Prod.fst).Nodup := by
      intro l
      induction l with
      | nil => intro m hm; simpa using hm
      | cons e l ih =>
        intro m hm
        simp only [List.foldl_cons]
        exact ih _ (GoMap_set_nodup m _ _ hm)
    exact key doc [] (by simp)

theorem M_step_eq (pre suf : List (GoString × Value)) (e : GoString × Value)
    (h : e.1 ∉ pre.map Prod.fst) :
    M.UnmarshalBSON.step (pre ++ e :: suf) e = pre ++ M.retagged e :: suf := by
  obtain ⟨k, x⟩ := e
  match x with
  | .plain (.map v) =>
    simp only [M.UnmarshalBSON.step, M.retagged]
    exact GoMap_set_append pre suf k _ _ h
  | .plain (.int32 _) => rfl
  | .plain (.bool _) => rfl
  | .plain (.other _ _) => rfl
  | .plain (.unsupported _) => rfl
  | .D _ => rfl
  | .M _ => rfl
  | .RawD _ => rfl

theorem M_retagged_fst (e : GoString × Value) : (M.retagged e).1 = e.1 := by
  obtain ⟨k, x⟩ := e
  match x with
  | .plain (.map v) => rfl
  | .plain (.int32 _) => rfl
  | .plain (.bool _) => rfl
  | .plain (.other _ _) => rfl
  | .plain (.unsupported _) => rfl
  | .D _ => rfl
  | .M _ => rfl
  | .RawD _ => rfl

theorem M_foldl_step (suf : List (GoString × Value)) :
    ∀ pre : List (GoString × Value), ((pre ++ suf).map Prod.fst).Nodup →
      suf.foldl M.UnmarshalBSON.step (pre ++ suf) = pre ++ suf.map M.retagged := by
  induction suf with
  | nil => intro pre _; simp
  | cons e suf ih =>
    intro pre hnd
    have hnot : e.1 ∉ pre.map Prod.fst := by
      intro hmem
      rw [List.map_append, List.map_cons] at hnd
      exact (List.nodup_append.mp hnd).2.2 hmem (by simp) 
    simp only [List.foldl_cons, M_step_eq pre suf e hnot]
    have hnd' : (((pre ++ [M.retagged e]) ++ suf).map Prod.fst).Nodup := by
      simpa [M_retagged_fst] using hnd
    have := ih (pre ++ [M.retagged e]) hnd'
    simpa using this

theorem M_decode_eq (T : TypeTable) (b : List Byte) (m : M) (h : M.decode T b = .ok m) :
    ∃ g, Unmarshal T b [] = .ok g ∧ m = g.map M.retagged := by
  simp only [M.decode] at h
  split at h
  · cases h
  · rename_i g hg
    simp only [Except.ok.injEq] at h
    refine ⟨g, hg, ?_⟩
    have := M_foldl_step g [] (by simpa using Unmarshal_nodup T b g hg)
    simp only [List.nil_append] at this
    rw [← h, this]

/-- C8: for every buffer `b` on which `M.UnmarshalBSON` succeeds, the receiver holds the
entries `g` of the generic unmarshal of `b`, with exactly the same keys, in which every entry
whose value is a plain `map[string]interface{}` holds that same mapping typed as `M`
and every other entry holds its generically decoded value unchanged. -/
theorem C8_M_UnmarshalBSON_retags (T : TypeTable) (m0 m : M) (b : List Byte)
    (h : M.UnmarshalBSON T m0 b = (m, none)) :
    ∃ g, Unmarshal T b [] = .ok g ∧ m.map Prod.fst = g.map Prod.fst ∧
      m = g.map (fun entry =>
        match entry.2 with
        | .plain (.map v) => (entry.1, .M (Plain.toM v))
        | _ => entry) := by
  have hd : M.decode T b = .ok m := by
    simp only [M.UnmarshalBSON] at h
    split at h
    · simp at h
    · rename_i newM hnew
      simp only [Prod.mk.injEq, and_true] at h
      rw [hnew, h]
  obtain ⟨g, hg, hm⟩ := M_decode_eq T b m hd
  refine ⟨g, hg, ?_, hm⟩
  rw [hm, List.map_map]
  exact List.map_congr_left (fun e _ => M_retagged_fst e)

/-- C8 at the 21 bytes of the test case "nested". -/
theorem C8_M_UnmarshalBSON_retags_witness :
    M.UnmarshalBSON testedTypes [] nestedBytes = (nestedM, none) ∧
      ∃ g, Unmarshal testedTypes nestedBytes [] = .ok g ∧
        nestedM.map Prod.fst = g.map Prod.fst ∧
        nestedM = g.map (fun entry =>
          match entry.2 with
          | .plain (.map v) => (entry.1, .M (Plain.toM v))
          | _ => entry) :=
  ⟨rfl, C8_M_UnmarshalBSON_retags testedTypes [] nestedM nestedBytes rfl⟩

/-! ## What the iterator and the document parser return -/

theorem readCString_some (bs key rest : List Byte) (h : readCString bs = some (key, rest)) :
    (0 : Byte) ∉ key ∧ bs = key ++ 0 :: rest := by
  induction bs generalizing key with
  | nil => simp [readCString] at h
  | cons c bs ih =>
    simp only [readCString] at h
    split at h
    · rename_i hc
      simp only [Option.some.injEq, Prod.mk.injEq] at h
      obtain ⟨rfl, rfl⟩ := h
      simp [hc]
    · rename_i hc
      split at h
      · cases h
      · rename_i key' rest' hrec
        simp only [Option.some.injEq, Prod.mk.injEq] at h
        obtain ⟨rfl, rfl⟩ := h
        obtain ⟨h0, hbs⟩ := ih key' hrec
        refine ⟨?_, by rw [hbs]; rfl⟩
        intro hmem
        rcases List.mem_cons.mp hmem with h1 | h1
        · exact hc h1.symm
        · exact h0 h1

theorem Next_element (T : TypeTable) (itr itr' : ReaderIterator) (e : ReaderElement)
    (h : ReaderIterator.Next T itr = .element e itr') :
    (0 : Byte) ∉ e.Key ∧ e.Kind ≠ 0 ∧
      itr.rest.length = e.Key.length + e.payload.length + 2 + itr'.rest.length ∧
      ∃ bs, T.payloadLen e.Kind bs = some e.payload.length ∧ e.payload.length ≤ bs.length ∧
        e.payload = bs.take e.payload.length := by
  obtain ⟨rest⟩ := itr
  simp only [ReaderIterator.Next] at h
  split at h
  · cases h
  · rename_i tag bs
    split at h
    · cases h
    · rename_i htag
      split at h
      · cases h
      · rename_i key bs' hkey
        split at h
        · cases h
        · rename_i n hn
          split at h
          · cases h
          · rename_i hlen
            simp only [Step.element.injEq] at h
            obtain ⟨rfl, rfl⟩ := h
            obtain ⟨h0, hbs⟩ := readCString_some bs key bs' hkey
            have hn' : n ≤ bs'.length := by omega
            have hl : (bs'.take n).length = n := by
              rw [List.length_take, Nat.min_eq_left hn']
            refine ⟨h0, htag, ?_, bs', ?_, ?_, ?_⟩
            · simp only [hbs, List.length_cons, List.length_append, List.length_take,
                List.length_drop]
              omega
            · simp only [hl]
              exact hn
            · simp only [hl]
              exact hn'
            · simp only [hl]

theorem collect_sound (T : TypeTable) :
    ∀ (fuel : Nat) (itr : ReaderIterator) (es : List ReaderElement),
      ReaderIterator.collect T fuel itr = .ok es →
      elemsSize es + 1 ≤ itr.rest.length ∧
        ∀ e ∈ es, (0 : Byte) ∉ e.Key ∧ e.Kind ≠ 0 ∧
          ∃ bs, T.payloadLen e.Kind bs = some e.payload.length ∧
            e.payload.length ≤ bs.length ∧ e.payload = bs.take e.payload.length := by
  intro fuel
  induction fuel with
  | zero => intro itr es h; simp [ReaderIterator.collect] at h
  | succ n ih =>
    intro itr es h
    simp only [ReaderIterator.collect] at h
    split at h
    · rename_i e itr' hnext
      split at h
      · cases h
      · rename_i es' hes'
        simp only [Except.ok.injEq] at h
        subst h
        obtain ⟨h0, hk0, hlen, hpl⟩ := Next_element T itr itr' e hnext
        obtain ⟨hsz, hall⟩ := ih itr' es' hes'
        refine ⟨by simp only [elemsSize]; omega, ?_⟩
        intro x hx
        rcases List.mem_cons.mp hx with rfl | hx
        · exact ⟨h0, hk0, hpl⟩
        · exact hall x hx
    · rename_i hnext
      simp only [Except.ok.injEq] at h
      subst h
      obtain ⟨rest⟩ := itr
      cases rest with
      | nil => simp [ReaderIterator.Next] at hnext
      | cons tag bs => simp [elemsSize]
    · cases h

theorem Uint32_lt (b : List Byte) : Uint32 b < 2 ^ 32 := by
  have h0 := (b.getD 0 0).isLt
  have h1 := (b.getD 1 0).isLt
  have h2 := (b.getD 2 0).isLt
  have h3 := (b.getD 3 0).isLt
  simp only [Uint32]
  omega

theorem readi32_range (b : List Byte) : -2 ^ 31 ≤ readi32 b ∧ readi32 b < 2 ^ 31 := by
  have h := Uint32_lt b
  simp only [readi32]
  split <;> omega

theorem NewReaderIterator_ok (b : List Byte) (itr : ReaderIterator)
    (h : NewReaderIterator b = .ok itr) :
    itr.rest.length + 4 ≤ b.length ∧ itr.rest.length + 4 < 2 ^ 31 + 4 ∧
      (itr.rest ≠ [] → itr.rest.length + 4 < 2 ^ 31) := by
  simp only [NewReaderIterator] at h
  split at h
  · cases h
  · split at h
    · cases h
    · rename_i h5 hlen
      simp only [Except.ok.injEq] at h
      subst h
      have hlt : readi32 b < 2 ^ 31 := (readi32_range b).2
      simp only [List.length_drop, List.length_take]
      refine ⟨by omega, by omega, ?_⟩
      intro _
      omega

theorem mapExcept_forall {α β : Type} (f : α → Except Error β) :
    ∀ (l : List α) (r : List β), mapExcept f l = .ok r → List.Forall₂ (fun a x => f a = .ok x) l r := by
  intro l
  induction l with
  | nil =>
    intro r h
    simp only [mapExcept, Except.ok.injEq] at h
    subst h
    exact List.Forall₂.nil
  | cons a l ih =>
    intro r h
    simp only [mapExcept] at h
    split at h
    · cases h
    · rename_i x hx
      split at h
      · cases h
      · rename_i xs hxs
        simp only [Except.ok.injEq] at h
        subst h
        exact List.Forall₂.cons hx (ih xs hxs)

theorem mapExcept_eq_map {α β : Type} (f : α → Except Error β) (g : α → β) (l : List α)
    (h : ∀ a ∈ l, f a = .ok (g a)) : mapExcept f l = .ok (l.map g) := by
  induction l with
  | nil => rfl
  | cons a l ih =>
    have ha : f a = .ok (g a) := h a (by simp)
    have hl := ih (fun x hx => h x (by simp [hx]))
    simp [mapExcept, ha, hl]

theorem interpret_sound (T : TypeTable) (hT : T.SelfDelimiting)
    (sub : List Byte → Except Error Document) (e : ReaderElement)
    (x : Element) (h : ReaderElement.interpret sub e = .ok x) (hk0 : e.Kind ≠ 0)
    (hpl : ∃ bs, (driverTypes T).payloadLen e.Kind bs = some e.payload.length ∧
      e.payload.length ≤ bs.length ∧ e.payload = bs.take e.payload.length)
    (hsub : ∀ doc, sub e.payload = .ok doc →
      Document.WF T doc ∧ (Document.body doc).length + 5 ≤ e.payload.length) :
    x.1 = e.Key ∧ BVal.WF T x.2 ∧ x.2.payload.length ≤ e.payload.length := by
  obtain ⟨bs, hbs, hle, htake⟩ := hpl
  simp only [ReaderElement.interpret] at h
  split at h
  · rename_i hk
    simp only [Except.ok.injEq] at h
    subst h
    simp only [driverTypes, hk, if_true, Option.some.injEq] at hbs
    refine ⟨rfl, ?_, ?_⟩
    · simp only [BVal.WF]; exact readi32_range _
    · simp only [BVal.payload, le32_length]; omega
  · rename_i hk
    split at h
    · rename_i hk2
      simp only [Except.ok.injEq] at h
      subst h
      have hbs' : e.payload.length = 1 := by
        simp only [driverTypes, hk2] at hbs
        rw [if_pos trivial] at hbs
        exact (Option.some.inj hbs).symm
      refine ⟨rfl, by simp [BVal.WF], ?_⟩
      simp only [BVal.payload, List.length_singleton]; omega
    · rename_i hk2
      split at h
      · split at h
        · cases h
        · rename_i d hd
          simp only [Except.ok.injEq] at h
          subst h
          obtain ⟨hwf, hlen⟩ := hsub d hd
          refine ⟨rfl, by simpa [BVal.WF] using hwf, ?_⟩
          simp only [BVal.payload, frame_length]; exact hlen
      · rename_i hk3
        simp only [Except.ok.injEq] at h
        subst h
        rw [driverTypes_other T e.Kind bs hk hk2 hk3] at hbs
        have hsd := hT e.Kind bs e.payload.length hbs hle
        rw [← htake] at hsd
        exact ⟨rfl, ⟨hk0, hk, hk2, hk3, hsd⟩, le_refl _⟩

theorem forall2_interpret_size (T : TypeTable) (es : List ReaderElement) (doc : Document)
    (h : List.Forall₂ (fun e (x : Element) =>
      x.1 = e.Key ∧ BVal.WF T x.2 ∧ x.2.payload.length ≤ e.payload.length) es doc)
    (h0 : ∀ e ∈ es, (0 : Byte) ∉ e.Key) :
    Document.WF T doc ∧ (Document.body doc).length ≤ elemsSize es := by
  induction h with
  | nil => simp [Document.WF, Document.body, elemsSize]
  | @cons e x es doc hex _ ih =>
    obtain ⟨k, v⟩ := x
    obtain ⟨hk, hwf, hlen⟩ := hex
    obtain ⟨hwfd, hsz⟩ := ih (fun y hy => h0 y (by simp [hy]))
    simp only at hk hwf hlen
    subst hk
    refine ⟨?_, ?_⟩
    · simp only [Document.WF]
      exact ⟨h0 e (by simp), hwf, hwfd⟩
    · simp only [Document.body, elemsSize, List.length_append, List.length_cons,
        List.length_nil]
      omega

theorem forall2_imp_mem {α β : Type} {P Q : α → β → Prop} (l : List α) (r : List β)
    (h : List.Forall₂ P l r) (himp : ∀ a ∈ l, ∀ x, P a x → Q a x) : List.Forall₂ Q l r := by
  induction h with
  | nil => exact List.Forall₂.nil
  | @cons a x l r hax _ ih =>
    exact List.Forall₂.cons (himp a (by simp) x hax)
      (ih (fun y hy z hz => himp y (by simp [hy]) z hz))

theorem UnmarshalDocument_go_sound (T : TypeTable) (hT : T.SelfDelimiting) :
    ∀ (fuel : Nat) (b : List Byte) (doc : Document), UnmarshalDocument.go T fuel b = .ok doc →
      Document.WF T doc ∧ (Document.body doc).length + 5 ≤ b.length ∧
        (Document.body doc).length + 5 < 2 ^ 31 := by
  intro fuel
  induction fuel with
  | zero => intro b doc h; simp [UnmarshalDocument.go] at h
  | succ n ih =>
    intro b doc h
    simp only [UnmarshalDocument.go] at h
    split at h
    · cases h
    · rename_i es hes
      simp only [readElements] at hes
      split at hes
      · cases hes
      · rename_i itr hitr
        obtain ⟨hsz, hall⟩ := collect_sound (driverTypes T) _ itr es hes
        obtain ⟨hb1, _, hb3⟩ := NewReaderIterator_ok b itr hitr
        have hne : itr.rest ≠ [] := by
          intro hnil
          rw [hnil] at hsz
          simp at hsz
        have hb3' := hb3 hne
        have hf := mapExcept_forall _ es doc h
        have hf' : List.Forall₂ (fun e (x : Element) =>
            x.1 = e.Key ∧ BVal.WF T x.2 ∧ x.2.payload.length ≤ e.payload.length) es doc := by
          refine forall2_imp_mem es doc hf ?_
          intro e he x hx
          refine interpret_sound T hT _ e x hx (hall e he).2.1 (hall e he).2.2 ?_
          intro d hd
          obtain ⟨h1, h2, _⟩ := ih e.payload d hd
          exact ⟨h1, h2⟩
        obtain ⟨hwf, hlen⟩ := forall2_interpret_size T es doc hf' (fun e he => (hall e he).1)
        exact ⟨hwf, by omega, by omega⟩

theorem UnmarshalDocument_sound (T : TypeTable) (hT : T.SelfDelimiting) (b : List Byte)
    (doc : Document) (h : UnmarshalDocument T b = .ok doc) :
    Document.WF T doc ∧ (Document.body doc).length + 5 ≤ b.length ∧
      (Document.body doc).length + 5 < 2 ^ 31 :=
  UnmarshalDocument_go_sound T hT _ b doc h

/-! ## Lemmas on what the ordered decoder stores -/

mutual
theorem BVal_toOrdered_ordered (T : TypeTable) :
    ∀ (v : BVal), BVal.WF T v →
      Value.Ordered T (BVal.toOrdered v) ∧ Value.toBVal T (BVal.toOrdered v) = v
  | .int32 i, h => by
    simp only [BVal.WF] at h
    simp only [BVal.toOrdered, BVal.Interface, Value.Ordered, Value.toBVal, EC.Interface.value]
    exact ⟨h, trivial⟩
  | .boolean b, _ => by
    simp [BVal.toOrdered, BVal.Interface, Value.Ordered, Value.toBVal, EC.Interface.value]
  | .other kind payload, h => by
    simp only [BVal.toOrdered, BVal.Interface, Value.Ordered, Value.toBVal, EC.Interface.value]
    exact ⟨h, trivial⟩
  | .document d, h => by
    have := Document_toD_ordered T d (by simpa [BVal.WF] using h)
    simp [BVal.toOrdered, Value.Ordered, Value.toBVal, this]
theorem Document_toD_ordered (T : TypeTable) :
    ∀ (d : List (GoString × BVal)), Document.WF T d →
      Value.OrderedElems T (Document.toD d) ∧ Value.toDocument T (Document.toD d) = d
  | [], _ => by simp [Document.toD, Value.OrderedElems, Value.toDocument]
  | (key, v) :: rest, h => by
    simp only [Document.WF] at h
    have hv := BVal_toOrdered_ordered T v h.2.1
    have hr := Document_toD_ordered T rest h.2.2
    simp [Document.toD, Value.OrderedElems, Value.toDocument, h.1, hv, hr]
end

theorem Document_toD_eq_map (d : Document) :
    Document.toD d = d.map (fun e => (e.1, BVal.toOrdered e.2)) := by
  induction d with
  | nil => rfl
  | cons e d ih =>
    obtain ⟨key, v⟩ := e
    simp [Document.toD, ih]

theorem D_decode_go_toD (T : TypeTable) (fuel : Nat) (doc : Document) (hwf : Document.WF T doc)
    (hsize : (Document.body doc).length + 5 < 2 ^ 31)
    (hfuel : (Document.body doc).length < fuel) :
    D.decode.go T fuel (frame (Document.body doc)) = .ok (Document.toD doc) := by
  obtain ⟨hord, hdoc⟩ := Document_toD_ordered T doc hwf
  have h := D_decode_go_ordered T fuel (Document.toD doc) hord
  rw [hdoc] at h
  exact h hsize hfuel

theorem D_elem_toOrdered (sub : List Byte → Except Error D) (e : Element)
    (hsub : ∀ d, e.2 = .document d → sub (frame (Document.body d)) = .ok (Document.toD d)) :
    D.UnmarshalBSON.elem sub e = .ok (e.1, BVal.toOrdered e.2) := by
  obtain ⟨key, v⟩ := e
  cases v with
  | int32 i => simp [D.UnmarshalBSON.elem, Element.Value, Element.Key, BVal.toOrdered]
  | boolean b => simp [D.UnmarshalBSON.elem, Element.Value, Element.Key, BVal.toOrdered]
  | other kind payload =>
    simp [D.UnmarshalBSON.elem, Element.Value, Element.Key, BVal.toOrdered]
  | document d =>
    simp [D.UnmarshalBSON.elem, Element.Value, Element.Key, BVal.toOrdered,
      BVal.ReaderDocument, hsub d rfl]

theorem D_decode_eq (T : TypeTable) (hT : T.SelfDelimiting) (b : List Byte) (d : D)
    (h : D.decode T b = .ok d) :
    ∃ doc, UnmarshalDocument T b = .ok doc ∧ d = Document.toD doc := by
  simp only [D.decode] at h
  obtain ⟨n, hn⟩ : ∃ n, b.length = n + 1 := by
    cases hlen : b.length with
    | zero => rw [hlen] at h; simp [D.decode.go] at h
    | succ n => exact ⟨n, rfl⟩
  rw [hn] at h
  simp only [D.decode.go] at h
  split at h
  · cases h
  · rename_i doc hdoc
    refine ⟨doc, hdoc, ?_⟩
    obtain ⟨hwf, hle, hlt⟩ := UnmarshalDocument_sound T hT b doc hdoc
    have hmap : mapExcept (D.UnmarshalBSON.elem (D.decode.go T n)) doc
        = .ok (doc.map (fun e => (e.1, BVal.toOrdered e.2))) := by
      refine mapExcept_eq_map _ _ doc ?_
      intro e he
      refine D_elem_toOrdered _ e ?_
      intro sub hsub
      have hwfe := (Document_WF_iff T doc).mp hwf e he
      have hpl := Document_payload_le doc e he
      have hp : e.2.payload.length = (Document.body sub).length + 5 := by
        rw [hsub]; simp [BVal.payload, frame_length]
      refine D_decode_go_toD T n sub ?_ (by omega) (by omega)
      have := hwfe.2
      rw [hsub] at this
      simpa [BVal.WF] using this
    rw [hmap] at h
    simp only [Except.ok.injEq] at h
    rw [← h, Document_toD_eq_map]

theorem withInt64_selfDelimiting : withInt64.SelfDelimiting := by
  intro tag bs n h _ rest
  simp only [withInt64] at h ⊢
  exact h

/-- C9: for every type system of the driver (the table `T` of the types beyond int32, boolean
and embedded document, with self-delimiting payloads) and every buffer `b` on which
`D.UnmarshalBSON` succeeds, the receiver is the `D` of the document `doc` read from `b`: every
element of type embedded document, at every depth, is held as a `D` that is the recursive
decoding of the sub-document, and every element of another type (an int32, a boolean, or any
type that `T` recognises) is held as its interpreted value; no value at any depth is a map, an
`M` or a `RawD`. -/
theorem C9_D_UnmarshalBSON_nests_D (T : TypeTable) (hT : T.SelfDelimiting) (d0 d : D)
    (b : List Byte) (h : D.UnmarshalBSON T d0 b = (d, none)) :
    ∃ doc, UnmarshalDocument T b = .ok doc ∧ d = Document.toD doc ∧
      Value.OrderedElems T d := by
  have hd : D.decode T b = .ok d := by
    simp only [D.UnmarshalBSON] at h
    split at h
    · simp at h
    · rename_i newD hnew
      simp only [Prod.mk.injEq, and_true] at h
      rw [hnew, h]
  obtain ⟨doc, hdoc, hD⟩ := D_decode_eq T hT b d hd
  refine ⟨doc, hdoc, hD, ?_⟩
  rw [hD]
  exact (Document_toD_ordered T doc (UnmarshalDocument_sound T hT b doc hdoc).1).1

/-- C9 at the 32 bytes of `{"foo": {"bar": false}, "n": int64(7)}`, for the table that knows the
64-bit integer: the sub-document is held as a `D`, the 64-bit integer as its interpreted
value. -/
theorem C9_D_UnmarshalBSON_nests_D_witness :
    withInt64.SelfDelimiting ∧
      D.UnmarshalBSON withInt64 [] mixedBytes = (mixedBytesDecoded, none) ∧
      ∃ doc, UnmarshalDocument withInt64 mixedBytes = .ok doc ∧
        mixedBytesDecoded = Document.toD doc ∧ Value.OrderedElems withInt64 mixedBytesDecoded :=
  ⟨withInt64_selfDelimiting, rfl,
    C9_D_UnmarshalBSON_nests_D withInt64 withInt64_selfDelimiting [] mixedBytesDecoded
      mixedBytes rfl⟩

/-! ## Lemmas on the supported values and the ordered round trip -/

mutual
theorem appendToDoc_supported (T : TypeTable) :
    ∀ (v : Value) (doc : Document) (key : GoString), Value.Supported T v →
      appendToDoc T doc key v = .ok (doc ++ [(key, Value.toBVal T v)])
  | .plain p, doc, key, _ => by simp [appendToDoc, EC.Interface, Value.toBVal]
  | .D d, doc, key, h => by
    have hd := D_loop_supported T d [] (by simpa [Value.Supported] using h)
    simp [appendToDoc, hd, EC.SubDocument, Value.toBVal]
  | .M m, doc, key, h => by
    have hm := M_loop_supported T m [] (by simpa [Value.Supported] using h)
    simp [appendToDoc, hm, EC.SubDocument, Value.toBVal]
  | .RawD r, doc, key, h => by
    simp only [Value.Supported] at h
    obtain ⟨sub, hsub⟩ := h
    simp [appendToDoc, hsub, EC.SubDocument, Value.toBVal]
theorem D_loop_supported (T : TypeTable) :
    ∀ (d : List (GoString × Value)) (doc : Document), Value.SupportedElems T d →
      D.MarshalBSONDocument.loop T d doc = .ok (doc ++ Value.toDocument T d)
  | [], doc, _ => by simp [D.MarshalBSONDocument.loop, Value.toDocument]
  | (name, v) :: rest, doc, h => by
    simp only [Value.SupportedElems] at h
    have h1 := appendToDoc_supported T v doc name h.2.1
    have h2 := D_loop_supported T rest (doc ++ [(name, Value.toBVal T v)]) h.2.2
    simp [D.MarshalBSONDocument.loop, h1, h2, Value.toDocument]
theorem M_loop_supported (T : TypeTable) :
    ∀ (m : List (GoString × Value)) (doc : Document), Value.SupportedElems T m →
      M.MarshalBSONDocument.loop T m doc = .ok (doc ++ Value.toDocument T m)
  | [], doc, _ => by simp [M.MarshalBSONDocument.loop, Value.toDocument]
  | (name, v) :: rest, doc, h => by
    simp only [Value.SupportedElems] at h
    have h1 := appendToDoc_supported T v doc name h.2.1
    have h2 := M_loop_supported T rest (doc ++ [(name, Value.toBVal T v)]) h.2.2
    simp [M.MarshalBSONDocument.loop, h1, h2, Value.toDocument]
end

mutual
theorem Value_supported_WF (T : TypeTable) (hT : T.SelfDelimiting) :
    ∀ (v : Value), Value.Supported T v → BVal.WF T (Value.toBVal T v)
  | .plain (.int32 i), h => by
    simpa [Value.toBVal, EC.Interface.value, BVal.WF, Value.Supported] using h
  | .plain (.bool b), _ => by simp [Value.toBVal, EC.Interface.value, BVal.WF]
  | .plain (.other kind payload), h => by
    simpa [Value.toBVal, EC.Interface.value, Value.Supported] using h
  | .plain (.map m), h => by simp [Value.Supported] at h
  | .plain (.unsupported _), h => by simp [Value.Supported] at h
  | .D d, h => by
    have := Value_supportedElems_WF T hT d (by simpa [Value.Supported] using h)
    simpa [Value.toBVal, BVal.WF] using this
  | .M m, h => by
    have := Value_supportedElems_WF T hT m (by simpa [Value.Supported] using h)
    simpa [Value.toBVal, BVal.WF] using this
  | .RawD r, h => by
    simp only [Value.Supported] at h
    obtain ⟨doc, hdoc⟩ := h
    have hb : UnmarshalDocument T (frame (RawD.body r)) = .ok doc := by
      simpa [RawD.MarshalBSONDocument, RawD_MarshalBSON_frame] using hdoc
    have hwf := (UnmarshalDocument_sound T hT _ doc hb).1
    simpa [Value.toBVal, hdoc, BVal.WF] using hwf
theorem Value_supportedElems_WF (T : TypeTable) (hT : T.SelfDelimiting) :
    ∀ (d : List (GoString × Value)), Value.SupportedElems T d →
      Document.WF T (Value.toDocument T d)
  | [], _ => by simp [Value.toDocument, Document.WF]
  | (name, v) :: rest, h => by
    simp only [Value.SupportedElems] at h
    simp only [Value.toDocument, Document.WF]
    exact ⟨h.1, Value_supported_WF T hT v h.2.1, Value_supportedElems_WF T hT rest h.2.2⟩
end

mutual
theorem Value_toOrdered_asD (T : TypeTable) :
    ∀ (v : Value), Value.Supported T v → BVal.toOrdered (Value.toBVal T v) = Value.asD T v
  | .plain (.int32 i), _ => by
    simp [Value.toBVal, EC.Interface.value, BVal.toOrdered, BVal.Interface, Value.asD]
  | .plain (.bool b), _ => by
    simp [Value.toBVal, EC.Interface.value, BVal.toOrdered, BVal.Interface, Value.asD]
  | .plain (.other kind payload), _ => by
    simp [Value.toBVal, EC.Interface.value, BVal.toOrdered, BVal.Interface, Value.asD]
  | .plain (.map m), h => by simp [Value.Supported] at h
  | .plain (.unsupported _), h => by simp [Value.Supported] at h
  | .D d, h => by
    have := Document_toD_asD T d (by simpa [Value.Supported] using h)
    simp [Value.toBVal, BVal.toOrdered, Value.asD, this]
  | .M m, h => by
    have := Document_toD_asD T m (by simpa [Value.Supported] using h)
    simp [Value.toBVal, BVal.toOrdered, Value.asD, this]
  | .RawD r, h => by
    simp only [Value.Supported] at h
    obtain ⟨doc, hdoc⟩ := h
    simp [Value.toBVal, BVal.toOrdered, Value.asD, hdoc]
theorem Document_toD_asD (T : TypeTable) :
    ∀ (d : List (GoString × Value)), Value.SupportedElems T d →
      Document.toD (Value.toDocument T d) = Value.elemsAsD T d
  | [], _ => by simp [Value.toDocument, Document.toD, Value.elemsAsD]
  | (name, v) :: rest, h => by
    simp only [Value.SupportedElems] at h
    simp [Value.toDocument, Document.toD, Value.elemsAsD, Value_toOrdered_asD T v h.2.1,
      Document_toD_asD T rest h.2.2]
end

mutual
theorem Value_asD_ordered (T : TypeTable) : ∀ (v : Value), Value.Ordered T v → Value.asD T v = v
  | .plain p, _ => by simp [Value.asD]
  | .D d, h => by
    have := Value_elemsAsD_ordered T d (by simpa [Value.Ordered] using h)
    simp [Value.asD, this]
  | .M m, h => by simp [Value.Ordered] at h
  | .RawD r, h => by simp [Value.Ordered] at h
theorem Value_elemsAsD_ordered (T : TypeTable) :
    ∀ (d : List (GoString × Value)), Value.OrderedElems T d → Value.elemsAsD T d = d
  | [], _ => by simp [Value.elemsAsD]
  | (name, v) :: rest, h => by
    simp only [Value.OrderedElems] at h
    simp [Value.elemsAsD, Value_asD_ordered T v h.2.1, Value_elemsAsD_ordered T rest h.2.2]
end

/-- C3, as stated, fails: `D{{"foo", M{"bar": false}}}` encodes, and `D.UnmarshalBSON` of the
bytes succeeds with `D{{"foo", D{{"bar", false}}}}`: the nested `M` has come back as a `D`. -/
theorem C3_counterexample :
    D.MarshalBSON testedTypes dWithM = .ok nestedBytes ∧
      D.UnmarshalBSON testedTypes [] nestedBytes = (nestedD, none) ∧ nestedD ≠ dWithM := by
  refine ⟨by decide, rfl, ?_⟩
  intro h
  simp [nestedD, dWithM] at h

/-- C3, amended: for every type system of the driver (the table `T` of the types beyond int32,
boolean and embedded document, with self-delimiting payloads), and every `D` `d` whose values
are values the encoder supports (`int32` and `bool` scalars, scalars of any other type that `T`
recognises, nested `D` and `M` documents of such values, and `RawD` documents that convert),
with names free of zero bytes at every depth of `D` and `M` and an encoding shorter than
`2 ^ 31` bytes: `D.MarshalBSON d` succeeds and `D.UnmarshalBSON` of the bytes returns no error
and sets the receiver to `d` with every nested `M` and every nested `RawD` replaced by the `D`
of the same elements; this is `d` itself when `d` holds no `M` and no `RawD` at any depth. -/
theorem C3_D_roundtrip (T : TypeTable) (hT : T.SelfDelimiting) (d d0 : D)
    (hsup : Value.SupportedElems T d)
    (hsize : ∀ b, D.MarshalBSON T d = .ok b → b.length < 2 ^ 31) :
    ∃ b, D.MarshalBSON T d = .ok b ∧ D.UnmarshalBSON T d0 b = (Value.elemsAsD T d, none) ∧
      (Value.OrderedElems T d → D.UnmarshalBSON T d0 b = (d, none)) := by
  have hloop := D_loop_supported T d [] hsup
  simp only [List.nil_append] at hloop
  have hb : D.MarshalBSON T d = .ok (frame (Document.body (Value.toDocument T d))) := by
    simp [D.MarshalBSON, D.MarshalBSONDocument, hloop, Document.MarshalBSON]
  have hs := hsize _ hb
  rw [frame_length] at hs
  have hwf := Value_supportedElems_WF T hT d hsup
  have hdec : D.decode T (frame (Document.body (Value.toDocument T d)))
      = .ok (Value.elemsAsD T d) := by
    rw [← Document_toD_asD T d hsup]
    exact D_decode_go_toD T _ (Value.toDocument T d) hwf hs (by rw [frame_length]; omega)
  have hun : D.UnmarshalBSON T d0 (frame (Document.body (Value.toDocument T d)))
      = (Value.elemsAsD T d, none) := by
    simp [D.UnmarshalBSON, hdec]
  refine ⟨_, hb, hun, fun hord => ?_⟩
  rw [hun, Value_elemsAsD_ordered T d hord]

theorem mixedD_supported : Value.SupportedElems withInt64 mixedD := by
  refine ⟨by decide, ?_, by decide, ?_, by decide, ⟨_, rfl⟩, trivial⟩
  · exact ⟨by decide, trivial, trivial⟩
  · exact ⟨by decide, by decide, by decide, by decide, fun rest => rfl⟩

theorem mixedD_small :
    ∀ b, D.MarshalBSON withInt64 mixedD = .ok b → b.length < 2 ^ 31 := by
  intro b hb
  have h : D.MarshalBSON withInt64 mixedD
      = .ok (frame (Document.body (Value.toDocument withInt64 mixedD))) := rfl
  rw [h] at hb
  cases hb
  rw [frame_length]
  decide

/-- C3, amended, at `D{{"foo", M{"bar": false}}, {"n", int64(7)}, {"bar", RawD{...}}}` with the
raw document of the test case "simple", for the table that knows the 64-bit integer: the `M`
and the `RawD` come back as `D`, the 64-bit integer as it is. -/
theorem C3_D_roundtrip_witness :
    withInt64.SelfDelimiting ∧ Value.SupportedElems withInt64 mixedD ∧
      (∀ b, D.MarshalBSON withInt64 mixedD = .ok b → b.length < 2 ^ 31) ∧
      Value.elemsAsD withInt64 mixedD = mixedDecoded ∧
      ∃ b, D.MarshalBSON withInt64 mixedD = .ok b ∧
        D.UnmarshalBSON withInt64 [] b = (Value.elemsAsD withInt64 mixedD, none) ∧
        (Value.OrderedElems withInt64 mixedD → D.UnmarshalBSON withInt64 [] b = (mixedD, none)) :=
  ⟨withInt64_selfDelimiting, mixedD_supported, mixedD_small, rfl,
    C3_D_roundtrip withInt64 withInt64_selfDelimiting mixedD [] mixedD_supported mixedD_small⟩

/-! ## Lemmas on the rejection of bad length prefixes -/

theorem NewReaderIterator_reject (b : List Byte) (h : b.length < 5 ∨ b.length < Uint32 b) :
    ∃ err, NewReaderIterator b = .error err := by
  simp only [NewReaderIterator]
  by_cases h5 : b.length < 5
  · exact ⟨_, if_pos h5⟩
  · rw [if_neg h5]
    have hlt : b.length < Uint32 b := by
      rcases h with h | h
      · exact absurd h h5
      · exact h
    have hbad : readi32 b < 0 ∨ (b.length : Int) < readi32 b := by
      have hu := Uint32_lt b
      simp only [readi32]
      split <;> omega
    exact ⟨_, if_pos hbad⟩

theorem readElements_reject (T : TypeTable) (b : List Byte)
    (h : b.length < 5 ∨ b.length < Uint32 b) : ∃ err, readElements T b = .error err := by
  obtain ⟨err, herr⟩ := NewReaderIterator_reject b h
  exact ⟨err, by simp only [readElements, herr]⟩

theorem UnmarshalDocument_reject (T : TypeTable) (b : List Byte)
    (h : b.length < 5 ∨ b.length < Uint32 b) :
    ∃ err, UnmarshalDocument T b = .error err := by
  simp only [UnmarshalDocument]
  cases hlen : b.length with
  | zero => exact ⟨_, rfl⟩
  | succ n =>
    obtain ⟨err, herr⟩ := readElements_reject (driverTypes T) b h
    exact ⟨err, by simp only [UnmarshalDocument.go, herr]⟩

theorem RawD_decode_reject (T : TypeTable) (b : List Byte)
    (h : b.length < 5 ∨ b.length < Uint32 b) : ∃ err, RawD.decode T b = .error err := by
  obtain ⟨err, herr⟩ := NewReaderIterator_reject b h
  exact ⟨err, by simp only [RawD.decode, herr]⟩

theorem D_decode_reject (T : TypeTable) (b : List Byte) (h : b.length < 5 ∨ b.length < Uint32 b) :
    ∃ err, D.decode T b = .error err := by
  simp only [D.decode]
  cases hlen : b.length with
  | zero => exact ⟨_, rfl⟩
  | succ n =>
    obtain ⟨err, herr⟩ := UnmarshalDocument_reject T b h
    exact ⟨err, by simp only [D.decode.go, herr]⟩

theorem M_decode_reject (T : TypeTable) (b : List Byte) (h : b.length < 5 ∨ b.length < Uint32 b) :
    ∃ err, M.decode T b = .error err := by
  obtain ⟨err, herr⟩ := UnmarshalDocument_reject T b h
  exact ⟨err, by simp only [M.decode, Unmarshal, herr]⟩

/-- C10: for every buffer `b` that is shorter than 5 bytes or whose declared little-endian
length prefix is greater than its length, `UnmarshalBSON` on `RawD`, on `D` and on `M` returns
a non-nil error (and leaves the receiver as it was). -/
theorem C10_bad_length_rejected (T : TypeTable) (r : RawD) (d : D) (m : M) (b : List Byte)
    (h : b.length < 5 ∨ b.length < Uint32 b) :
    (∃ err, RawD.UnmarshalBSON T r b = (r, some err)) ∧
      (∃ err, D.UnmarshalBSON T d b = (d, some err)) ∧
      (∃ err, M.UnmarshalBSON T m b = (m, some err)) := by
  obtain ⟨e1, h1⟩ := RawD_decode_reject T b h
  obtain ⟨e2, h2⟩ := D_decode_reject T b h
  obtain ⟨e3, h3⟩ := M_decode_reject T b h
  exact ⟨⟨e1, by simp only [RawD.UnmarshalBSON, h1]⟩,
    ⟨e2, by simp only [D.UnmarshalBSON, h2]⟩, ⟨e3, by simp only [M.UnmarshalBSON, h3]⟩⟩

/-- C10 at a buffer of five bytes that declares twenty, with non-empty receivers. -/
theorem C10_bad_length_rejected_witness :
    (truncatedBytes.length < 5 ∨ truncatedBytes.length < Uint32 truncatedBytes) ∧
      (∃ err,
        RawD.UnmarshalBSON testedTypes simpleRawD truncatedBytes = (simpleRawD, some err)) ∧
      (∃ err, D.UnmarshalBSON testedTypes simpleD truncatedBytes = (simpleD, some err)) ∧
      (∃ err, M.UnmarshalBSON testedTypes nestedM truncatedBytes = (nestedM, some err)) :=
  ⟨Or.inr (by decide),
    C10_bad_length_rejected testedTypes simpleRawD simpleD nestedM truncatedBytes
      (Or.inr (by decide))⟩

/-! ## The raw decoder in terms of the iterator -/

theorem RawD_loop_eq_collect (T : TypeTable) :
    ∀ (fuel : Nat) (itr : ReaderIterator) (acc : RawD),
      RawD.UnmarshalBSON.loop T fuel itr acc =
        match ReaderIterator.collect T fuel itr with
        | .error err => .error err
        | .ok es => .ok (acc ++ es.map ReaderElement.toRaw) := by
  intro fuel
  induction fuel with
  | zero => intro itr acc; rfl
  | succ n ih =>
    intro itr acc
    simp only [RawD.UnmarshalBSON.loop, ReaderIterator.collect]
    cases hnext : ReaderIterator.Next T itr with
    | element e itr' =>
      have hd : List.drop (1 + e.Key.length + 1) ([e.Kind] ++ e.Key ++ [0] ++ e.payload)
          = e.payload := by
        have : ([e.Kind] ++ e.Key ++ [0] ++ e.payload)
            = ([e.Kind] ++ e.Key ++ [0]) ++ e.payload := by simp
        rw [this, List.drop_left' (by simp; omega)]
      simp only [ReaderElement.MarshalBSON, hd, ih]
      cases ReaderIterator.collect T n itr' with
      | error err => rfl
      | ok es => simp [ReaderElement.toRaw]
    | done => simp
    | failed err => rfl

theorem RawD_decode_eq_readElements (T : TypeTable) (b : List Byte) :
    RawD.decode T b =
      match readElements T b with
      | .error err => .error err
      | .ok es => .ok (es.map ReaderElement.toRaw) := by
  simp only [RawD.decode, readElements]
  cases NewReaderIterator b with
  | error err => rfl
  | ok itr =>
    simp only [RawD_loop_eq_collect]
    cases ReaderIterator.collect T (b.length + 1) itr with
    | error err => rfl
    | ok es => simp

/-! ## Lemmas on unrecognised type tags -/

theorem Next_bad_tag (T : TypeTable) (tag : Byte) (rest : List Byte) (htag : tag ≠ 0)
    (hbad : ∀ bs, T.payloadLen tag bs = none) :
    ∃ err, ReaderIterator.Next T ⟨tag :: rest⟩ = .failed err := by
  simp only [ReaderIterator.Next, if_neg htag]
  cases readCString rest with
  | none => exact ⟨_, rfl⟩
  | some kr =>
    obtain ⟨key, bs'⟩ := kr
    simp only [hbad]
    exact ⟨_, rfl⟩

theorem collect_bad_tag (T : TypeTable) (pre : RawD) (hwf : RawD.WellFormed T pre)
    (tag : Byte) (rest : List Byte) (htag : tag ≠ 0) (hbad : ∀ bs, T.payloadLen tag bs = none) :
    ∀ fuel, pre.length < fuel →
      ∃ err, ReaderIterator.collect T fuel ⟨RawD.body pre ++ tag :: rest⟩ = .error err := by
  induction pre with
  | nil =>
    intro fuel hf
    obtain ⟨n, rfl⟩ : ∃ n, fuel = n + 1 := ⟨fuel - 1, by simp at hf; omega⟩
    obtain ⟨err, herr⟩ := Next_bad_tag T tag rest htag hbad
    refine ⟨err, ?_⟩
    simp only [ReaderIterator.collect, RawD.body, List.map_nil, List.flatten_nil,
      List.nil_append, herr]
  | cons e pre ih =>
    intro fuel hf
    obtain ⟨n, rfl⟩ : ∃ n, fuel = n + 1 := ⟨fuel - 1, by simp at hf; omega⟩
    have he : RawDocElem.WellFormed T e := hwf e (by simp)
    have hr : RawD.WellFormed T pre := fun x hx => hwf x (by simp [hx])
    obtain ⟨err, herr⟩ := ih hr n (by simp at hf; omega)
    refine ⟨err, ?_⟩
    simp only [ReaderIterator.collect, RawD_body_cons, List.append_assoc, Next_bytes T e _ he,
      herr]

theorem readElements_bad_tag (T : TypeTable) (pre : RawD) (hwf : RawD.WellFormed T pre)
    (tag : Byte) (rest : List Byte) (htag : tag ≠ 0) (hbad : ∀ bs, T.payloadLen tag bs = none)
    (hsize : (frame (RawD.body pre ++ tag :: rest)).length < 2 ^ 31) :
    ∃ err, readElements T (frame (RawD.body pre ++ tag :: rest)) = .error err := by
  rw [frame_length] at hsize
  have hit := NewReaderIterator_encoded ((RawD.body pre ++ tag :: rest).length + 5)
    (RawD.body pre ++ tag :: rest) rfl hsize
  have hlen := RawD_body_length_ge pre
  obtain ⟨err, herr⟩ := collect_bad_tag T pre hwf tag (rest ++ [0]) htag hbad
    ((frame (RawD.body pre ++ tag :: rest)).length + 1)
    (by rw [frame_length]; simp only [List.length_append]; omega)
  refine ⟨err, ?_⟩
  simp only [readElements]
  rw [frame_eq] at herr ⊢
  rw [hit]
  simpa using herr

/-- C11: for every buffer `b` with a correct length prefix and terminator that has, where the
type byte of an element stands (after the valid elements `pre`, possibly none), a byte `tag`
that is not a recognised BSON type tag, `UnmarshalBSON` on `RawD` and on `D` returns a non-nil
error (and leaves the receiver as it was). "Recognised" is relative to the type system that the
decoder reads with: the table `T` for `RawD`, and for `D` the driver's table `driverTypes T`,
which knows int32, boolean and embedded document and every type that `T` knows. -/
theorem C11_unknown_tag_rejected (T : TypeTable) (pre : RawD) (tag : Byte) (rest b : List Byte)
    (r : RawD) (d : D) (hb : b = frame (RawD.body pre ++ tag :: rest))
    (hsize : b.length < 2 ^ 31) (htag : tag ≠ 0) :
    (RawD.WellFormed T pre → (∀ bs, T.payloadLen tag bs = none) →
        ∃ err, RawD.UnmarshalBSON T r b = (r, some err)) ∧
      (RawD.WellFormed (driverTypes T) pre →
        (∀ bs, (driverTypes T).payloadLen tag bs = none) →
        ∃ err, D.UnmarshalBSON T d b = (d, some err)) := by
  subst hb
  constructor
  · intro hwf hbad
    obtain ⟨err, herr⟩ := readElements_bad_tag T pre hwf tag rest htag hbad hsize
    refine ⟨err, ?_⟩
    have hd : RawD.decode T (frame (RawD.body pre ++ tag :: rest)) = .error err := by
      rw [RawD_decode_eq_readElements, herr]
    exact RawD_UnmarshalBSON_error T r _ err hd
  · intro hwf hbad
    obtain ⟨err, herr⟩ := readElements_bad_tag (driverTypes T) pre hwf tag rest htag hbad hsize
    have hlen : ∃ n, (frame (RawD.body pre ++ tag :: rest)).length = n + 1 :=
      ⟨_, frame_length _⟩
    obtain ⟨n, hn⟩ := hlen
    have hdoc : UnmarshalDocument T (frame (RawD.body pre ++ tag :: rest)) = .error err := by
      simp only [UnmarshalDocument, hn, UnmarshalDocument.go, herr]
    have hd : D.decode T (frame (RawD.body pre ++ tag :: rest)) = .error err := by
      simp only [D.decode, hn, D.decode.go, hdoc]
    exact ⟨err, by simp only [D.UnmarshalBSON, hd]⟩

theorem barRaw_wellFormed :
    RawD.WellFormed testedTypes [⟨bar, ⟨0x08, [0]⟩⟩] := by
  intro e he
  simp only [List.mem_singleton] at he
  subst he
  exact ⟨by decide, by decide, fun rest => by simp [testedTypes, TypeInt32, TypeBoolean]⟩

theorem badTag_unrecognised : ∀ bs, testedTypes.payloadLen 0x7e bs = none := by
  intro bs
  simp [testedTypes, TypeInt32, TypeBoolean, TypeEmbeddedDocument]

theorem barRaw_wellFormed_driver :
    RawD.WellFormed (driverTypes withInt64) [⟨bar, ⟨0x08, [0]⟩⟩] := by
  intro e he
  simp only [List.mem_singleton] at he
  subst he
  exact ⟨by decide, by decide, fun rest => by simp [driverTypes, TypeInt32, TypeBoolean]⟩

theorem badTag_unrecognised_driver : ∀ bs, (driverTypes withInt64).payloadLen 0x7e bs = none := by
  intro bs
  simp [driverTypes, withInt64, TypeInt32, TypeBoolean, TypeEmbeddedDocument]

/-- C11 at the 14 bytes `badTagBytes`: the element `"bar"` is valid, the next type byte is
`0x7e`, which neither the table of the tested types (for `RawD`) nor the driver's table with the
64-bit integer (for `D`) recognises. -/
theorem C11_unknown_tag_rejected_witness :
    badTagBytes = frame (RawD.body [⟨bar, ⟨0x08, [0]⟩⟩] ++ 0x7e :: [0x61, 0]) ∧
      (∃ err, RawD.UnmarshalBSON testedTypes simpleRawD badTagBytes = (simpleRawD, some err)) ∧
      (∃ err, D.UnmarshalBSON withInt64 simpleD badTagBytes = (simpleD, some err)) :=
  ⟨by decide,
    (C11_unknown_tag_rejected testedTypes [⟨bar, ⟨0x08, [0]⟩⟩] 0x7e [0x61, 0] badTagBytes
      simpleRawD simpleD (by decide) (by decide) (by decide)).1 barRaw_wellFormed
      badTag_unrecognised,
    (C11_unknown_tag_rejected withInt64 [⟨bar, ⟨0x08, [0]⟩⟩] 0x7e [0x61, 0] badTagBytes
      simpleRawD simpleD (by decide) (by decide) (by decide)).2 barRaw_wellFormed_driver
      badTag_unrecognised_driver⟩

/-- C12: for each of `RawD`, `D` and `M`, every receiver value and every buffer `b`: if
`UnmarshalBSON` returns an error the receiver still holds the value it had, and if it returns
no error the receiver holds the decoding of the whole buffer (for `D`, with a type table whose
payloads are self-delimiting, the `D` of the document parsed with all its sub-documents). -/
theorem C12_decode_atomic (T : TypeTable) (x : RawD) (d : D) (m : M) (b : List Byte) :
    ((∀ err, (RawD.UnmarshalBSON T x b).2 = some err → (RawD.UnmarshalBSON T x b).1 = x) ∧
        ((RawD.UnmarshalBSON T x b).2 = none →
          RawD.decode T b = .ok (RawD.UnmarshalBSON T x b).1)) ∧
      ((∀ err, (D.UnmarshalBSON T d b).2 = some err → (D.UnmarshalBSON T d b).1 = d) ∧
        ((D.UnmarshalBSON T d b).2 = none → D.decode T b = .ok (D.UnmarshalBSON T d b).1) ∧
        (T.SelfDelimiting → (D.UnmarshalBSON T d b).2 = none →
          ∃ doc, UnmarshalDocument T b = .ok doc ∧
            (D.UnmarshalBSON T d b).1 = Document.toD doc)) ∧
      ((∀ err, (M.UnmarshalBSON T m b).2 = some err → (M.UnmarshalBSON T m b).1 = m) ∧
        ((M.UnmarshalBSON T m b).2 = none → M.decode T b = .ok (M.UnmarshalBSON T m b).1)) := by
  refine ⟨⟨?_, ?_⟩, ⟨?_, ?_, ?_⟩, ⟨?_, ?_⟩⟩
  · intro err
    simp only [RawD.UnmarshalBSON]
    cases RawD.decode T b <;> simp
  · simp only [RawD.UnmarshalBSON]
    cases RawD.decode T b <;> simp
  · intro err
    simp only [D.UnmarshalBSON]
    cases D.decode T b <;> simp
  · simp only [D.UnmarshalBSON]
    cases D.decode T b <;> simp
  · intro hT
    simp only [D.UnmarshalBSON]
    cases hd : D.decode T b with
    | error err => simp
    | ok newD =>
      intro _
      exact D_decode_eq T hT b newD hd
  · intro err
    simp only [M.UnmarshalBSON]
    cases M.decode T b <;> simp
  · simp only [M.UnmarshalBSON]
    cases M.decode T b <;> simp

/-! ## Lemmas on the errors of the encoders -/

theorem appendToDoc_of_value (T : TypeTable) (doc : Document) (key : GoString) (v : Value) :
    appendToDoc T doc key v =
      match v with
      | .plain p => .ok (doc ++ [EC.Interface key p])
      | _ =>
        match Value.MarshalBSONDocument T v with
        | some (.ok d) => .ok (doc ++ [EC.SubDocument key d])
        | some (.error err) => .error err
        | none => .ok doc := by
  cases v with
  | plain p => simp [appendToDoc]
  | D d =>
    simp only [appendToDoc, Value.MarshalBSONDocument, D.MarshalBSONDocument]
    cases D.MarshalBSONDocument.loop T d [] <;> rfl
  | M m =>
    simp only [appendToDoc, Value.MarshalBSONDocument, M.MarshalBSONDocument]
    cases M.MarshalBSONDocument.loop T m [] <;> rfl
  | RawD r =>
    simp only [appendToDoc, Value.MarshalBSONDocument]
    cases RawD.MarshalBSONDocument T r <;> rfl

theorem appendToDoc_error_of (T : TypeTable) (doc : Document) (key : GoString) (v : Value)
    (e : Error) (h : Value.MarshalBSONDocument T v = some (.error e)) :
    appendToDoc T doc key v = .error e := by
  rw [appendToDoc_of_value]
  cases v with
  | plain p => simp [Value.MarshalBSONDocument] at h
  | D d => simp only [h]
  | M m => simp only [h]
  | RawD r => simp only [h]

theorem appendToDoc_ok_of (T : TypeTable) (doc : Document) (key : GoString) (v : Value)
    (h : ∀ e, Value.MarshalBSONDocument T v ≠ some (.error e)) :
    ∃ doc', appendToDoc T doc key v = .ok doc' := by
  rw [appendToDoc_of_value]
  cases v with
  | plain p => exact ⟨_, rfl⟩
  | D d =>
    cases hv : Value.MarshalBSONDocument T (.D d) with
    | none => exact ⟨_, rfl⟩
    | some x =>
      cases x with
      | error err => exact absurd hv (h err)
      | ok sub => exact ⟨_, rfl⟩
  | M m =>
    cases hv : Value.MarshalBSONDocument T (.M m) with
    | none => exact ⟨_, rfl⟩
    | some x =>
      cases x with
      | error err => exact absurd hv (h err)
      | ok sub => exact ⟨_, rfl⟩
  | RawD r =>
    cases hv : Value.MarshalBSONDocument T (.RawD r) with
    | none => exact ⟨_, rfl⟩
    | some x =>
      cases x with
      | error err => exact absurd hv (h err)
      | ok sub => exact ⟨_, rfl⟩

theorem D_loop_first_error (T : TypeTable) (pre post : List (GoString × Value))
    (name : GoString) (v : Value) (e : Error)
    (hpre : ∀ x ∈ pre, ∀ e', Value.MarshalBSONDocument T x.2 ≠ some (.error e'))
    (hv : Value.MarshalBSONDocument T v = some (.error e)) :
    ∀ doc, D.MarshalBSONDocument.loop T (pre ++ (name, v) :: post) doc = .error e := by
  induction pre with
  | nil =>
    intro doc
    simp only [List.nil_append, D.MarshalBSONDocument.loop, appendToDoc_error_of T doc name v e hv]
  | cons x pre ih =>
    intro doc
    obtain ⟨k, w⟩ := x
    obtain ⟨doc', hdoc'⟩ := appendToDoc_ok_of T doc k w (hpre (k, w) (by simp))
    simp only [List.cons_append, D.MarshalBSONDocument.loop, hdoc']
    exact ih (fun y hy => hpre y (by simp [hy])) doc'

theorem M_loop_first_error (T : TypeTable) (pre post : List (GoString × Value))
    (name : GoString) (v : Value) (e : Error)
    (hpre : ∀ x ∈ pre, ∀ e', Value.MarshalBSONDocument T x.2 ≠ some (.error e'))
    (hv : Value.MarshalBSONDocument T v = some (.error e)) :
    ∀ doc, M.MarshalBSONDocument.loop T (pre ++ (name, v) :: post) doc = .error e := by
  induction pre with
  | nil =>
    intro doc
    simp only [List.nil_append, M.MarshalBSONDocument.loop, appendToDoc_error_of T doc name v e hv]
  | cons x pre ih =>
    intro doc
    obtain ⟨k, w⟩ := x
    obtain ⟨doc', hdoc'⟩ := appendToDoc_ok_of T doc k w (hpre (k, w) (by simp))
    simp only [List.cons_append, M.MarshalBSONDocument.loop, hdoc']
    exact ih (fun y hy => hpre y (by simp [hy])) doc'

mutual
theorem appendToDoc_error_raw (T : TypeTable) :
    ∀ (v : Value) (doc : Document) (key : GoString) (e : Error),
      appendToDoc T doc key v = .error e → Value.RawFails T e v
  | .plain p, doc, key, e, h => by simp [appendToDoc] at h
  | .D d, doc, key, e, h => by
    simp only [appendToDoc] at h
    split at h
    · rename_i err herr
      simp only [Except.error.injEq] at h
      subst h
      exact D_loop_error_raw T d [] err herr
    · cases h
  | .M m, doc, key, e, h => by
    simp only [appendToDoc] at h
    split at h
    · rename_i err herr
      simp only [Except.error.injEq] at h
      subst h
      exact M_loop_error_raw T m [] err herr
    · cases h
  | .RawD r, doc, key, e, h => by
    simp only [appendToDoc] at h
    split at h
    · rename_i err herr
      simp only [Except.error.injEq] at h
      subst h
      exact herr
    · cases h
theorem D_loop_error_raw (T : TypeTable) :
    ∀ (d : List (GoString × Value)) (doc : Document) (e : Error),
      D.MarshalBSONDocument.loop T d doc = .error e → Value.SomeRawFails T e d
  | [], doc, e, h => by simp [D.MarshalBSONDocument.loop] at h
  | (name, v) :: rest, doc, e, h => by
    simp only [D.MarshalBSONDocument.loop] at h
    split at h
    · rename_i err herr
      simp only [Except.error.injEq] at h
      subst h
      exact Or.inl (appendToDoc_error_raw T v doc name err herr)
    · rename_i doc' _
      exact Or.inr (D_loop_error_raw T rest doc' e h)
theorem M_loop_error_raw (T : TypeTable) :
    ∀ (m : List (GoString × Value)) (doc : Document) (e : Error),
      M.MarshalBSONDocument.loop T m doc = .error e → Value.SomeRawFails T e m
  | [], doc, e, h => by simp [M.MarshalBSONDocument.loop] at h
  | (k, v) :: rest, doc, e, h => by
    simp only [M.MarshalBSONDocument.loop] at h
    split at h
    · rename_i err herr
      simp only [Except.error.injEq] at h
      subst h
      exact Or.inl (appendToDoc_error_raw T v doc k err herr)
    · rename_i doc' _
      exact Or.inr (M_loop_error_raw T rest doc' e h)
end

/-- C13, as stated, fails: a `D` and an `M` that hold, under the name `"x"`, a value that BSON
cannot represent: whatever element `elem` the generic encoder makes of it,
`MarshalBSONDocument` returns no error and the document with that element. -/
theorem C13_counterexample :
    (∀ (T : TypeTable) (elem : BVal),
        D.MarshalBSONDocument T [(xName, .plain (.unsupported elem))] = .ok [(xName, elem)]) ∧
      (∀ (T : TypeTable) (elem : BVal),
        M.MarshalBSONDocument T [(xName, .plain (.unsupported elem))] = .ok [(xName, elem)]) :=
  ⟨fun _ _ => rfl, fun _ _ => rfl⟩

/-- C13, amended: for every `D` `d` and every `M` `m`, `MarshalBSONDocument` returns a non-nil
error `e` (and no document) only if some `RawD` inside it, reached through `D` and `M` values,
fails `MarshalBSONDocument` with `e`; for a value that the generic encoder cannot represent
`appendToDoc` returns no error and appends the element that `EC.Interface` makes of it. -/
theorem C13_error_only_from_raw (T : TypeTable) (d : D) (m : M) :
    (∀ e, D.MarshalBSONDocument T d = .error e → Value.SomeRawFails T e d) ∧
      (∀ e, M.MarshalBSONDocument T m = .error e → Value.SomeRawFails T e m) ∧
      (∀ (doc : Document) (key : GoString) (elem : BVal),
        appendToDoc T doc key (.plain (.unsupported elem)) = .ok (doc ++ [(key, elem)])) :=
  ⟨fun e h => D_loop_error_raw T d [] e h, fun e h => M_loop_error_raw T m [] e h,
    fun _ _ _ => rfl⟩

/-- C14: for every `D` and every `M` with the elements `pre ++ (name, v) :: post` in iteration
order, if no value of `pre` is a `D`, `M` or `RawD` that fails `MarshalBSONDocument` and `v` is
one that fails with the error `e`, then `MarshalBSONDocument` returns no document and exactly
`e`, whatever the elements `post` after it are. -/
theorem C14_nested_error_propagates (T : TypeTable) (pre post : List (GoString × Value))
    (name : GoString) (v : Value) (e : Error)
    (hpre : ∀ x ∈ pre, ∀ e', Value.MarshalBSONDocument T x.2 ≠ some (.error e'))
    (hv : Value.MarshalBSONDocument T v = some (.error e)) :
    D.MarshalBSONDocument T (pre ++ (name, v) :: post) = .error e ∧
      M.MarshalBSONDocument T (pre ++ (name, v) :: post) = .error e :=
  ⟨D_loop_first_error T pre post name v e hpre hv [],
    M_loop_first_error T pre post name v e hpre hv []⟩

theorem brokenRaw_fails :
    Value.MarshalBSONDocument testedTypes (.RawD brokenRaw) = some (.error .invalidKey) := rfl

theorem fooInt_never_fails :
    ∀ x ∈ [(foo, Value.plain (.int32 1))], ∀ e',
      Value.MarshalBSONDocument testedTypes x.2 ≠ some (.error e') := by
  intro x hx e'
  simp only [List.mem_singleton] at hx
  subst hx
  simp [Value.MarshalBSONDocument]

/-- C14 at `{"foo": int32(1), "x": brokenRaw, "bar": false}`: the raw document fails with an
invalid-key error, and so do the `D` and the `M`. -/
theorem C14_nested_error_propagates_witness :
    D.MarshalBSONDocument testedTypes
        ([(foo, .plain (.int32 1))] ++ (xName, .RawD brokenRaw) :: [(bar, .plain (.bool false))])
        = .error .invalidKey ∧
      M.MarshalBSONDocument testedTypes
        ([(foo, .plain (.int32 1))] ++ (xName, .RawD brokenRaw) :: [(bar, .plain (.bool false))])
        = .error .invalidKey :=
  C14_nested_error_propagates testedTypes [(foo, .plain (.int32 1))]
    [(bar, .plain (.bool false))] xName (.RawD brokenRaw) .invalidKey fooInt_never_fails
    brokenRaw_fails

/-- C15: for each of `M`, `D` and `RawD` and every value, `MarshalBSONDocumentUnsafe` panics
with the error `err` if and only if `MarshalBSONDocument` returns the error `err`, and returns
the document `doc` if and only if `MarshalBSONDocument` returns `doc` without error. -/
theorem C15_unsafe_variants (T : TypeTable) (m : M) (d : D) (r : RawD) :
    ((∀ err, M.MarshalBSONDocumentUnsafe T m = .panics err ↔
          M.MarshalBSONDocument T m = .error err) ∧
        (∀ doc, M.MarshalBSONDocumentUnsafe T m = .returns doc ↔
          M.MarshalBSONDocument T m = .ok doc)) ∧
      ((∀ err, D.MarshalBSONDocumentUnsafe T d = .panics err ↔
          D.MarshalBSONDocument T d = .error err) ∧
        (∀ doc, D.MarshalBSONDocumentUnsafe T d = .returns doc ↔
          D.MarshalBSONDocument T d = .ok doc)) ∧
      ((∀ err, RawD.MarshalBSONDocumentUnsafe T r = .panics err ↔
          RawD.MarshalBSONDocument T r = .error err) ∧
        (∀ doc, RawD.MarshalBSONDocumentUnsafe T r = .returns doc ↔
          RawD.MarshalBSONDocument T r = .ok doc)) := by
  refine ⟨⟨?_, ?_⟩, ⟨?_, ?_⟩, ⟨?_, ?_⟩⟩
  · intro err
    simp only [M.MarshalBSONDocumentUnsafe]
    cases M.MarshalBSONDocument T m <;> simp
  · intro doc
    simp only [M.MarshalBSONDocumentUnsafe]
    cases M.MarshalBSONDocument T m <;> simp
  · intro err
    simp only [D.MarshalBSONDocumentUnsafe]
    cases D.MarshalBSONDocument T d <;> simp
  · intro doc
    simp only [D.MarshalBSONDocumentUnsafe]
    cases D.MarshalBSONDocument T d <;> simp
  · intro err
    simp only [RawD.MarshalBSONDocumentUnsafe]
    cases RawD.MarshalBSONDocument T r <;> simp
  · intro doc
    simp only [RawD.MarshalBSONDocumentUnsafe]
    cases RawD.MarshalBSONDocument T r <;> simp

theorem RawD_body_length (r : RawD) :
    (RawD.body r).length
      = (r.map (fun e => 2 + e.Name.length + e.Value.Data.length)).sum := by
  induction r with
  | nil => simp [RawD.body]
  | cons e r ih =>
    rw [RawD_body_cons, List.length_append, ih]
    simp only [RawDocElem.bytes, List.length_append, List.length_cons, List.length_nil,
      List.map_cons, List.sum_cons]
    omega

/-- C16: for every `RawD` `r`, whatever its names, kinds and data, `RawD.MarshalBSON r`
returns no error and a buffer of `5 + Σ (2 + len(Name) + len(Data))` bytes. -/
theorem C16_RawD_MarshalBSON_total (r : RawD) :
    ∃ b, RawD.MarshalBSON r = .ok b ∧
      b.length = 5 + (r.map (fun e => 2 + e.Name.length + e.Value.Data.length)).sum := by
  obtain ⟨b, hb, hlen, _⟩ := RawD_length_field r
  refine ⟨b, hb, ?_⟩
  rw [hlen, RawD.size, RawD_body_length]
  omega

/-- C17, as stated, fails: when `range` visits `"bar"` first, `M.MarshalBSON` of
`M{"foo": int32(1), "bar": false}` returns the 20 bytes with the `"bar"` element before the
`"foo"` element, which are not the bytes of the claim. -/
theorem C17_counterexample :
    M.MarshalBSON testedTypes barFooM = .ok barFooBytes ∧ barFooBytes ≠ simpleBytes := by
  decide

theorem fooBarM_bytes (T : TypeTable) : M.MarshalBSON T fooBarM = .ok simpleBytes := by
  have h : M.MarshalBSON T fooBarM = M.MarshalBSON testedTypes fooBarM := rfl
  rw [h]
  decide

theorem barFooM_bytes (T : TypeTable) : M.MarshalBSON T barFooM = .ok barFooBytes := by
  have h : M.MarshalBSON T barFooM = M.MarshalBSON testedTypes barFooM := rfl
  rw [h]
  decide

/-- C17, amended: `M.MarshalBSON` of `M{"foo": int32(1), "bar": false}` succeeds and returns 20
bytes that begin with the length `14 00 00 00` and end with `00`; between them stand the
elements `10 66 6f 6f 00 01 00 00 00` and `08 62 61 72 00 00` in the order in which the map is
iterated. -/
theorem C17_literal_M (T : TypeTable) (m : M) (h : m = fooBarM ∨ m = barFooM) :
    (m = fooBarM → M.MarshalBSON T m = .ok simpleBytes) ∧
      (m = barFooM → M.MarshalBSON T m = .ok barFooBytes) ∧
      ∃ b, M.MarshalBSON T m = .ok b ∧ b.length = 20 ∧ Uint32 b = 20 := by
  refine ⟨fun hm => by subst hm; exact fooBarM_bytes T,
    fun hm => by subst hm; exact barFooM_bytes T, ?_⟩
  rcases h with rfl | rfl
  · exact ⟨simpleBytes, fooBarM_bytes T, by decide, by decide⟩
  · exact ⟨barFooBytes, barFooM_bytes T, by decide, by decide⟩

/-- C17, amended, at the iteration order of the test case "simple". -/
theorem C17_literal_M_witness :
    M.MarshalBSON testedTypes fooBarM = .ok simpleBytes ∧
      ∃ b, M.MarshalBSON testedTypes fooBarM = .ok b ∧ b.length = 20 ∧ Uint32 b = 20 :=
  ⟨(C17_literal_M testedTypes fooBarM (Or.inl rfl)).1 rfl,
    (C17_literal_M testedTypes fooBarM (Or.inl rfl)).2.2⟩

/-! ## Lemmas on the ordered and the raw encoding of the same document -/

mutual
theorem appendToDoc_kind (T : TypeTable) :
    ∀ (v : Value) (doc : Document) (key : GoString), Value.OfOrderedKind v →
      appendToDoc T doc key v = .ok (doc ++ [(key, Value.toBVal T v)])
  | .plain p, doc, key, _ => by simp [appendToDoc, EC.Interface, Value.toBVal]
  | .D d, doc, key, h => by
    have hd := D_loop_kind T d [] (by simpa [Value.OfOrderedKind] using h)
    simp [appendToDoc, hd, EC.SubDocument, Value.toBVal]
  | .M m, doc, key, h => by simp [Value.OfOrderedKind] at h
  | .RawD r, doc, key, h => by simp [Value.OfOrderedKind] at h
theorem D_loop_kind (T : TypeTable) :
    ∀ (d : List (GoString × Value)) (doc : Document), Value.AllOfOrderedKind d →
      D.MarshalBSONDocument.loop T d doc = .ok (doc ++ Value.toDocument T d)
  | [], doc, _ => by simp [D.MarshalBSONDocument.loop, Value.toDocument]
  | (name, v) :: rest, doc, h => by
    simp only [Value.AllOfOrderedKind] at h
    have h1 := appendToDoc_kind T v doc name h.1
    have h2 := D_loop_kind T rest (doc ++ [(name, Value.toBVal T v)]) h.2
    simp [D.MarshalBSONDocument.loop, h1, h2, Value.toDocument]
end

theorem nestedD_kind : Value.AllOfOrderedKind nestedD := by
  simp [nestedD, Value.AllOfOrderedKind, Value.OfOrderedKind]

theorem D_MarshalBSONDocument_kind (T : TypeTable) (d : D) (h : Value.AllOfOrderedKind d) :
    D.MarshalBSONDocument T d = .ok (Value.toDocument T d) := by
  have := D_loop_kind T d [] h
  simpa [D.MarshalBSONDocument] using this

theorem D_MarshalBSON_kind (T : TypeTable) (d : D) (h : Value.AllOfOrderedKind d) :
    D.MarshalBSON T d = .ok (frame (Document.body (Value.toDocument T d))) := by
  simp [D.MarshalBSON, D_MarshalBSONDocument_kind T d h, Document.MarshalBSON]

theorem Value_toRaw_kind (T : TypeTable) (key : GoString) (v : Value) (h : Value.OfOrderedKind v) :
    Element.toRaw (key, Value.toBVal T v) = ⟨key, Value.toRaw T v⟩ := by
  match v, h with
  | .plain (.int32 i), _ =>
    simp [Element.toRaw, Value.toBVal, EC.Interface.value, BVal.Kind, BVal.payload, Value.toRaw,
      TypeInt32]
  | .plain (.bool b), _ =>
    simp [Element.toRaw, Value.toBVal, EC.Interface.value, BVal.Kind, BVal.payload, Value.toRaw,
      TypeBoolean]
  | .plain (.other _ _), h => simp [Value.OfOrderedKind] at h
  | .plain (.map _), h => simp [Value.OfOrderedKind] at h
  | .plain (.unsupported _), h => simp [Value.OfOrderedKind] at h
  | .D d, h =>
    have hd := D_MarshalBSON_kind T d (by simpa [Value.OfOrderedKind] using h)
    simp [Element.toRaw, Value.toBVal, BVal.Kind, BVal.payload, Value.toRaw, hd,
      TypeEmbeddedDocument]
  | .M _, h => simp [Value.OfOrderedKind] at h
  | .RawD _, h => simp [Value.OfOrderedKind] at h

theorem D_toRawD_eq (T : TypeTable) (d : D) (h : Value.AllOfOrderedKind d) :
    (Value.toDocument T d).map Element.toRaw = D.toRawD T d := by
  induction d with
  | nil => rfl
  | cons e d ih =>
    obtain ⟨name, v⟩ := e
    simp only [Value.AllOfOrderedKind] at h
    simp only [Value.toDocument, List.map_cons, D.toRawD, Value_toRaw_kind T name v h.1]
    have := ih h.2
    simp only [D.toRawD] at this
    rw [this]

/-- C18, as stated, fails: for the `D` with one boolean element whose name is a zero byte,
`D.MarshalBSONDocument` returns the document with that name, while `RawD.MarshalBSONDocument`
of the corresponding `RawD` returns a document whose element has the empty name. -/
theorem C18_counterexample :
    Value.AllOfOrderedKind zeroNameD ∧
      D.MarshalBSONDocument testedTypes zeroNameD = .ok [([0], .boolean false)] ∧
      RawD.MarshalBSONDocument testedTypes (D.toRawD testedTypes zeroNameD)
        = .ok [([], .boolean false)] ∧
      D.MarshalBSONDocument testedTypes zeroNameD
        ≠ RawD.MarshalBSONDocument testedTypes (D.toRawD testedTypes zeroNameD) := by
  have h1 : D.MarshalBSONDocument testedTypes zeroNameD = .ok [([0], .boolean false)] := rfl
  have h2 : RawD.MarshalBSONDocument testedTypes (D.toRawD testedTypes zeroNameD)
      = .ok [([], .boolean false)] := rfl
  refine ⟨by simp [zeroNameD, Value.AllOfOrderedKind, Value.OfOrderedKind], h1, h2, ?_⟩
  rw [h1, h2]
  intro h
  simp at h

/-- C18, amended: for every `D` `d` whose values are `int32`, `bool` or nested `D` of the same
kind, and the `RawD` with the same names in the same order and each value replaced by its type
tag and payload bytes, `D.MarshalBSON d` equals `RawD.MarshalBSON` of it; and when the names of
`d` have no zero byte at any depth and the encoding is shorter than `2 ^ 31` bytes,
`D.MarshalBSONDocument d` equals `RawD.MarshalBSONDocument` of it. -/
theorem C18_D_RawD_same_encoding (T : TypeTable) (d : D) (hkind : Value.AllOfOrderedKind d) :
    D.MarshalBSON T d = RawD.MarshalBSON (D.toRawD T d) ∧
      (Value.OrderedElems T d → (∀ b, D.MarshalBSON T d = .ok b → b.length < 2 ^ 31) →
        D.MarshalBSONDocument T d = RawD.MarshalBSONDocument T (D.toRawD T d)) := by
  have hbytes : D.MarshalBSON T d = RawD.MarshalBSON (D.toRawD T d) := by
    rw [D_MarshalBSON_kind T d hkind, RawD_MarshalBSON_frame, Document_body_eq,
      D_toRawD_eq T d hkind]
  refine ⟨hbytes, ?_⟩
  intro hord hsize
  have hs := hsize _ (D_MarshalBSON_kind T d hkind)
  rw [frame_length] at hs
  have hparse := UnmarshalDocument_frame T (Value.toDocument T d) (Value_toDocument_WF T d hord) hs
  rw [D_MarshalBSONDocument_kind T d hkind]
  simp only [RawD.MarshalBSONDocument, ← hbytes, D_MarshalBSON_kind T d hkind, hparse]

/-- C18, amended, at the `D` of the test case "nested". -/
theorem C18_D_RawD_same_encoding_witness :
    Value.AllOfOrderedKind nestedD ∧
      D.MarshalBSON testedTypes nestedD = RawD.MarshalBSON (D.toRawD testedTypes nestedD) ∧
      D.MarshalBSONDocument testedTypes nestedD
        = RawD.MarshalBSONDocument testedTypes (D.toRawD testedTypes nestedD) :=
  ⟨nestedD_kind, (C18_D_RawD_same_encoding testedTypes nestedD nestedD_kind).1,
    (C18_D_RawD_same_encoding testedTypes nestedD nestedD_kind).2
      nestedD_ordered nestedD_small⟩

/-- C19: for every buffer `b` that is a well-formed BSON document whose length equals its
declared length prefix (the four little-endian bytes of its length, then the well-formed
elements `r0`, then the terminator), `RawD.UnmarshalBSON` succeeds with the `RawD` that has,
for each element the iterator yields, its type byte as `Kind`, its name as `Name` and its
payload bytes as `Data`; this is `r0`, and `RawD.MarshalBSON` of it returns `b`. -/
theorem C19_raw_decode_keeps_payload (T : TypeTable) (r0 x : RawD) (b : List Byte)
    (hwf : RawD.WellFormed T r0) (hb : b = le32 b.length ++ RawD.body r0 ++ [0])
    (hlen : b.length < 2 ^ 31) :
    RawD.UnmarshalBSON T x b = (r0, none) ∧
      (∃ es, readElements T b = .ok es ∧ r0 = es.map ReaderElement.toRaw) ∧
      RawD.MarshalBSON r0 = .ok b := by
  have hsz : b.length = RawD.size r0 := by
    have := congrArg List.length hb
    simp only [List.length_append, le32_length, List.length_singleton] at this
    simp only [RawD.size]
    omega
  have hb' : b = frame (RawD.body r0) := by
    rw [frame_eq, ← RawD.size, ← hsz]
    exact hb
  have hsize : RawD.size r0 < 2 ^ 31 := by omega
  have hre := readElements_frame T r0 hwf hsize
  rw [← hb'] at hre
  have hmap : (r0.map RawDocElem.toReader).map ReaderElement.toRaw = r0 := by
    rw [List.map_map]
    conv_rhs => rw [← List.map_id r0]
    exact List.map_congr_left (fun e _ => rfl)
  have hd : RawD.decode T b = .ok r0 := by
    rw [RawD_decode_eq_readElements, hre]
    simp only [hmap]
  refine ⟨RawD_UnmarshalBSON_ok T x r0 b hd, ⟨_, hre, hmap.symm⟩, ?_⟩
  rw [RawD_MarshalBSON_frame, hb']

/-- C19 at the 20 bytes of the test case "simple". -/
theorem C19_raw_decode_keeps_payload_witness :
    RawD.UnmarshalBSON testedTypes [] simpleBytes = (simpleRawD, none) ∧
      (∃ es, readElements testedTypes simpleBytes = .ok es ∧
        simpleRawD = es.map ReaderElement.toRaw) ∧
      RawD.MarshalBSON simpleRawD = .ok simpleBytes :=
  C19_raw_decode_keeps_payload testedTypes simpleRawD [] simpleBytes
    (by
      intro e he
      simp only [simpleRawD, List.mem_cons, List.mem_singleton, List.not_mem_nil,
        or_false] at he
      rcases he with rfl | rfl
      · exact ⟨by decide, by decide, fun rest => by simp [testedTypes, TypeInt32]⟩
      · exact ⟨by decide, by decide,
          fun rest => by simp [testedTypes, TypeInt32, TypeBoolean]⟩)
    (by decide) (by decide)

/-! ## Lemmas on the elements of the unordered encoding -/

theorem appendToDoc_appends (T : TypeTable) (doc doc' : Document) (key : GoString) (v : Value)
    (h : appendToDoc T doc key v = .ok doc') :
    ∃ elem, doc' = doc ++ [elem] ∧ appendToDoc.Appends T (key, v) elem := by
  cases v with
  | plain p =>
    simp only [appendToDoc, Except.ok.injEq] at h
    exact ⟨_, h.symm, rfl⟩
  | D d =>
    simp only [appendToDoc] at h
    split at h
    · cases h
    · rename_i sub hsub
      simp only [Except.ok.injEq] at h
      exact ⟨_, h.symm, sub, hsub, rfl⟩
  | M m =>
    simp only [appendToDoc] at h
    split at h
    · cases h
    · rename_i sub hsub
      simp only [Except.ok.injEq] at h
      exact ⟨_, h.symm, sub, hsub, rfl⟩
  | RawD r =>
    simp only [appendToDoc] at h
    split at h
    · cases h
    · rename_i sub hsub
      simp only [Except.ok.injEq] at h
      exact ⟨_, h.symm, sub, hsub, rfl⟩

theorem M_loop_appends (T : TypeTable) (m : List (GoString × Value)) :
    ∀ (doc doc' : Document), M.MarshalBSONDocument.loop T m doc = .ok doc' →
      ∃ new, doc' = doc ++ new ∧ List.Forall₂ (appendToDoc.Appends T) m new := by
  induction m with
  | nil =>
    intro doc doc' h
    simp only [M.MarshalBSONDocument.loop, Except.ok.injEq] at h
    exact ⟨[], by simp [h], List.Forall₂.nil⟩
  | cons e m ih =>
    intro doc doc' h
    obtain ⟨k, v⟩ := e
    simp only [M.MarshalBSONDocument.loop] at h
    split at h
    · cases h
    · rename_i doc1 h1
      obtain ⟨elem, rfl, helem⟩ := appendToDoc_appends T _ _ _ _ h1
      obtain ⟨new, rfl, hnew⟩ := ih _ _ h
      exact ⟨elem :: new, by simp, List.Forall₂.cons helem hnew⟩

/-- C20: for every `M` `m` on which `MarshalBSONDocument` succeeds, the document has exactly
`len(m)` elements, and they are, in the order in which the map is iterated, the elements that
`appendToDoc` produces for the entries `(k, v)`: a sub-document element named `k` (of type
`0x03`) when `v` is a `D`, an `M` or a `RawD`, and the generic encoder's element for `(k, v)`
otherwise. -/
theorem C20_M_covers_every_entry (T : TypeTable) (m : M) (doc : Document)
    (h : M.MarshalBSONDocument T m = .ok doc) :
    doc.length = m.length ∧
      List.Forall₂
        (fun (entry : GoString × Value) (elem : Element) =>
          match entry.2 with
          | .plain p => elem = EC.Interface entry.1 p
          | .D d =>
            ∃ sub, D.MarshalBSONDocument T d = .ok sub ∧ elem = EC.SubDocument entry.1 sub ∧
              elem.2.Kind = 0x03
          | .M x =>
            ∃ sub, M.MarshalBSONDocument T x = .ok sub ∧ elem = EC.SubDocument entry.1 sub ∧
              elem.2.Kind = 0x03
          | .RawD r =>
            ∃ sub, RawD.MarshalBSONDocument T r = .ok sub ∧
              elem = EC.SubDocument entry.1 sub ∧ elem.2.Kind = 0x03)
        m doc := by
  obtain ⟨new, hdoc, hall⟩ := M_loop_appends T m [] doc h
  simp only [List.nil_append] at hdoc
  subst hdoc
  refine ⟨hall.length_eq.symm, ?_⟩
  refine forall2_imp_mem m doc hall ?_
  intro entry _ elem helem
  obtain ⟨k, v⟩ := entry
  cases v with
  | plain p => exact helem
  | D d =>
    obtain ⟨sub, hsub, rfl⟩ := helem
    exact ⟨sub, hsub, rfl, rfl⟩
  | M x =>
    obtain ⟨sub, hsub, rfl⟩ := helem
    exact ⟨sub, hsub, rfl, rfl⟩
  | RawD r =>
    obtain ⟨sub, hsub, rfl⟩ := helem
    exact ⟨sub, hsub, rfl, rfl⟩

/-- C20 at the `M` of the test case "nested". -/
theorem C20_M_covers_every_entry_witness :
    M.MarshalBSONDocument testedTypes nestedM = .ok [(foo, .document [(bar, .boolean false)])] ∧
      ([(foo, BVal.document [(bar, .boolean false)])] : Document).length = nestedM.length :=
  ⟨rfl,
    (C20_M_covers_every_entry testedTypes nestedM [(foo, .document [(bar, .boolean false)])]
      rfl).1⟩

/-- C21: for every element that the iterator yields, from whatever buffer, and every
successful re-serialisation `elemBytes` of it: `elemBytes` has at least `1 + len(key) + 1`
bytes, so the slice `elemBytes[1+len(key)+1:]` is in range; the bytes before the slice are
exactly the type byte, the key (which has no zero byte) and one zero byte, and the slice is the
payload of the element. -/
theorem C21_payload_slice_in_range (T : TypeTable) (itr itr' : ReaderIterator)
    (e : ReaderElement) (elemBytes : List Byte)
    (hnext : ReaderIterator.Next T itr = .element e itr')
    (hser : e.MarshalBSON = .ok elemBytes) :
    1 + e.Key.length + 1 ≤ elemBytes.length ∧
      elemBytes.take (1 + e.Key.length + 1) = [e.Kind] ++ e.Key ++ [0] ∧
      (0 : Byte) ∉ e.Key ∧
      elemBytes.drop (1 + e.Key.length + 1) = e.payload := by
  simp only [ReaderElement.MarshalBSON, Except.ok.injEq] at hser
  subst hser
  have hsplit : ([e.Kind] ++ e.Key ++ [0] ++ e.payload)
      = ([e.Kind] ++ e.Key ++ [0]) ++ e.payload := by simp
  have hlen : ([e.Kind] ++ e.Key ++ [0]).length = 1 + e.Key.length + 1 := by
    simp only [List.length_append, List.length_singleton]
  refine ⟨?_, ?_, (Next_element T itr itr' e hnext).1, ?_⟩
  · simp only [List.length_append, List.length_singleton]
    omega
  · rw [hsplit, ← hlen, List.take_left]
  · rw [hsplit, ← hlen, List.drop_left]

/-- C21 at the first element of the 20 bytes of the test case "simple". -/
theorem C21_payload_slice_in_range_witness :
    1 + foo.length + 1 ≤ ([0x10] ++ foo ++ [0] ++ [1, 0, 0, 0] : List Byte).length ∧
      ([0x10] ++ foo ++ [0] ++ [1, 0, 0, 0] : List Byte).take (1 + foo.length + 1)
        = [0x10] ++ foo ++ [0] ∧
      (0 : Byte) ∉ foo ∧
      ([0x10] ++ foo ++ [0] ++ [1, 0, 0, 0] : List Byte).drop (1 + foo.length + 1)
        = [1, 0, 0, 0] :=
  C21_payload_slice_in_range testedTypes ⟨simpleBytes.drop 4⟩ ⟨simpleBytes.drop 13⟩
    ⟨0x10, foo, [1, 0, 0, 0]⟩ ([0x10] ++ foo ++ [0] ++ [1, 0, 0, 0]) (by decide) rfl

/-! ## Lemmas on documents without raw sub-documents -/

mutual
theorem Value_rawFree_not_fails (T : TypeTable) :
    ∀ (v : Value) (e : Error), Value.RawFree v → ¬ Value.RawFails T e v
  | .plain _, _, _ => by simp [Value.RawFails]
  | .D d, e, h => by
    have := Value_allRawFree_not_fails T d e (by simpa [Value.RawFree] using h)
    simpa [Value.RawFails] using this
  | .M m, e, h => by
    have := Value_allRawFree_not_fails T m e (by simpa [Value.RawFree] using h)
    simpa [Value.RawFails] using this
  | .RawD _, _, h => by simp [Value.RawFree] at h
theorem Value_allRawFree_not_fails (T : TypeTable) :
    ∀ (d : List (GoString × Value)) (e : Error),
      Value.AllRawFree d → ¬ Value.SomeRawFails T e d
  | [], _, _ => by simp [Value.SomeRawFails]
  | (_, v) :: rest, e, h => by
    simp only [Value.AllRawFree] at h
    simp only [Value.SomeRawFails, not_or]
    exact ⟨Value_rawFree_not_fails T v e h.1, Value_allRawFree_not_fails T rest e h.2⟩
end

/-- C22: for every `D` `d` and every `M` `m` that holds no `RawD` at any nesting depth,
`MarshalBSONDocument` returns a nil error and a document, whatever the other values are; and
the `default` branch of `appendToDoc` returns no error for any value: it appends the generic
encoder's element. -/
theorem C22_error_needs_raw (T : TypeTable) (d : D) (m : M) :
    (Value.AllRawFree d → ∃ doc, D.MarshalBSONDocument T d = .ok doc) ∧
      (Value.AllRawFree m → ∃ doc, M.MarshalBSONDocument T m = .ok doc) ∧
      (∀ (doc : Document) (key : GoString) (p : Plain),
        appendToDoc T doc key (.plain p) = .ok (doc ++ [EC.Interface key p])) := by
  refine ⟨?_, ?_, fun _ _ _ => rfl⟩
  · intro h
    cases hd : D.MarshalBSONDocument T d with
    | ok doc => exact ⟨doc, rfl⟩
    | error e => exact absurd (D_loop_error_raw T d [] e hd) (Value_allRawFree_not_fails T d e h)
  · intro h
    cases hm : M.MarshalBSONDocument T m with
    | ok doc => exact ⟨doc, rfl⟩
    | error e => exact absurd (M_loop_error_raw T m [] e hm) (Value_allRawFree_not_fails T m e h)

theorem rawFreeElems_rawFree (elem : BVal) : Value.AllRawFree (rawFreeElems elem) := by
  simp [rawFreeElems, Value.AllRawFree, Value.RawFree]

/-- C22 at a `D` and an `M` with an unsupported value and an `M` nested in a `D`. -/
theorem C22_error_needs_raw_witness :
    (∃ doc, D.MarshalBSONDocument testedTypes (rawFreeElems (.boolean true)) = .ok doc) ∧
      (∃ doc, M.MarshalBSONDocument testedTypes (rawFreeElems (.boolean true)) = .ok doc) :=
  ⟨(C22_error_needs_raw testedTypes (rawFreeElems (.boolean true))
      (rawFreeElems (.boolean true))).1 (rawFreeElems_rawFree _),
    (C22_error_needs_raw testedTypes (rawFreeElems (.boolean true))
      (rawFreeElems (.boolean true))).2.1 (rawFreeElems_rawFree _)⟩

/-- C23: `RawD.MarshalBSON` is not injective: `joinedRaw` and `splitRaw` differ, their names
have no zero byte, and both encode to the same 16 bytes; `RawD.UnmarshalBSON` of these bytes
yields `splitRaw`, so `joinedRaw` does not come back from its encoding. -/
theorem C23_MarshalBSON_not_injective :
    ∃ r1 r2 : RawD, r1 ≠ r2 ∧ (∀ e ∈ r1, (0 : Byte) ∉ e.Name) ∧ (∀ e ∈ r2, (0 : Byte) ∉ e.Name) ∧
      RawD.MarshalBSON r1 = RawD.MarshalBSON r2 ∧
      (∃ b, RawD.MarshalBSON r1 = .ok b ∧ RawD.UnmarshalBSON testedTypes [] b = (r2, none)) :=
  ⟨joinedRaw, splitRaw, by decide, by decide, by decide, by decide,
    joinedBytes, by decide, by decide⟩

end Mgobson
